import Mathlib

set_option maxRecDepth 8192

/-!
# Verification of `persona_builder.py`

A shallow embedding of the Reddit persona-builder pipeline
(`src/persona_builder.py`) in Lean 4, with theorems settling the frozen
claims about it.

Conventions of the embedding:
* Python strings are `String` (lists of unicode code points, matching
  Python's `len` / indexing semantics).
* `json.loads` (the Python standard library) is an external collaborator;
  functions that call it take a `jsonLoads : String → Option Json`
  parameter, where `none` models a `JSONDecodeError`.
* Network I/O is external: the scraper takes the decoded response of each
  category fetch as a parameter, with `none` modelling any network,
  HTTP-status or JSON-decode failure (all caught by the same `except`).
* Exceptions that a code path catches are modelled by `Option`/values;
  exceptions that propagate are modelled by `Except`.
-/

/-- JSON values, as produced by Python's `json.loads`.  Numbers are
modelled as integers (all numeric fields of the persona schema are
intensity scores). -/
inductive Json where
  | null : Json
  | bool : Bool → Json
  | num : Int → Json
  | str : String → Json
  | arr : List Json → Json
  | obj : List (String × Json) → Json

/-- Key lookup in a decoded JSON object (Python `dict` indexing). -/
def jsonLookup (kvs : List (String × Json)) (k : String) : Option Json :=
  match kvs with
  | [] => none
  | (k', v) :: rest => if k' = k then some v else jsonLookup rest k

/-- A JSON value read as a string field. -/
def Json.asStr : Json → Option String
  | .str s => some s
  | _ => none

/-- A JSON value read as an integer field. -/
def Json.asInt : Json → Option Int
  | .num n => some n
  | _ => none

/-- A JSON value read as a list of strings. -/
def Json.asStrList : Json → Option (List String)
  | .arr xs => xs.mapM Json.asStr
  | _ => none

/-- A JSON value read as a string-to-int mapping (insertion order kept,
as Python dicts do). -/
def Json.asIntMap : Json → Option (List (String × Int))
  | .obj kvs => kvs.mapM (fun kv => (Json.asInt kv.2).map (fun n => (kv.1, n)))
  | _ => none

/-- A JSON value read as a string-to-string-list mapping. -/
def Json.asStrListMap : Json → Option (List (String × List String))
  | .obj kvs => kvs.mapM (fun kv => (Json.asStrList kv.2).map (fun l => (kv.1, l)))
  | _ => none

/-- The `UserPersonaModel` pydantic schema of `persona_builder.py`
(lines 65-92): every field is required, free-text fields are strings,
list fields are string lists, `motivations` and `personality_percentages`
map names to integer scores, `citations` maps category names to quote
lists.  Python dicts keep insertion order, so the two maps are embedded
as association lists. -/
structure UserPersonaModel where
  name : String
  age_range : String
  location : String
  occupation : String
  status : String
  tier : String
  archetype : String
  interests : List String
  personality_traits : List String
  goals : List String
  frustrations : List String
  preferred_subreddits : List String
  communication_style : String
  technology_comfort : String
  social_media_behavior : String
  motivations : List (String × Int)
  behavior_habits : List String
  personality_percentages : List (String × Int)
  citations : List (String × List String)
deriving DecidableEq

/-- The seven leading free-text fields of the schema, validated together.
(The grouping into `validate₁`/`validate₂`/`validate₃` is only engineering:
pydantic validates all required fields of the object at once, and the
combined result in `UserPersonaModel.model_validate` is all-or-nothing
either way.) -/
def UserPersonaModel.validate₁ (kvs : List (String × Json)) :
    Option (String × String × String × String × String × String × String) := do
  let name ← (jsonLookup kvs "name").bind Json.asStr
  let age_range ← (jsonLookup kvs "age_range").bind Json.asStr
  let location ← (jsonLookup kvs "location").bind Json.asStr
  let occupation ← (jsonLookup kvs "occupation").bind Json.asStr
  let status ← (jsonLookup kvs "status").bind Json.asStr
  let tier ← (jsonLookup kvs "tier").bind Json.asStr
  let archetype ← (jsonLookup kvs "archetype").bind Json.asStr
  pure (name, age_range, location, occupation, status, tier, archetype)

/-- The list-valued fields and the remaining free-text fields of the
schema, validated together. -/
def UserPersonaModel.validate₂ (kvs : List (String × Json)) :
    Option (List String × List String × List String × List String × List String ×
      String × String × String × List String) := do
  let interests ← (jsonLookup kvs "interests").bind Json.asStrList
  let personality_traits ← (jsonLookup kvs "personality_traits").bind Json.asStrList
  let goals ← (jsonLookup kvs "goals").bind Json.asStrList
  let frustrations ← (jsonLookup kvs "frustrations").bind Json.asStrList
  let preferred_subreddits ← (jsonLookup kvs "preferred_subreddits").bind Json.asStrList
  let communication_style ← (jsonLookup kvs "communication_style").bind Json.asStr
  let technology_comfort ← (jsonLookup kvs "technology_comfort").bind Json.asStr
  let social_media_behavior ← (jsonLookup kvs "social_media_behavior").bind Json.asStr
  let behavior_habits ← (jsonLookup kvs "behavior_habits").bind Json.asStrList
  pure (interests, personality_traits, goals, frustrations, preferred_subreddits,
    communication_style, technology_comfort, social_media_behavior, behavior_habits)

/-- The map-valued fields of the schema, validated together. -/
def UserPersonaModel.validate₃ (kvs : List (String × Json)) :
    Option (List (String × Int) × List (String × Int) ×
      List (String × List String)) := do
  let motivations ← (jsonLookup kvs "motivations").bind Json.asIntMap
  let personality_percentages ← (jsonLookup kvs "personality_percentages").bind Json.asIntMap
  let citations ← (jsonLookup kvs "citations").bind Json.asStrListMap
  pure (motivations, personality_percentages, citations)

/-- `UserPersonaModel.model_validate` (pydantic v2): the decoded JSON must
be an object carrying every declared field with the declared shape;
`none` models a `ValidationError`.  Extra keys are ignored, as pydantic
does by default. -/
def UserPersonaModel.model_validate (j : Json) : Option UserPersonaModel :=
  match j with
  | .obj kvs => do
    let (name, age_range, location, occupation, status, tier, archetype) ←
      UserPersonaModel.validate₁ kvs
    let (interests, personality_traits, goals, frustrations, preferred_subreddits,
      communication_style, technology_comfort, social_media_behavior, behavior_habits) ←
      UserPersonaModel.validate₂ kvs
    let (motivations, personality_percentages, citations) ←
      UserPersonaModel.validate₃ kvs
    pure { name, age_range, location, occupation, status, tier, archetype,
           interests, personality_traits, goals, frustrations,
           preferred_subreddits, communication_style, technology_comfort,
           social_media_behavior, motivations, behavior_habits,
           personality_percentages, citations }
  | _ => none

/-- `PersonaOutputParser._fallback_parse` (lines 137-160): the canonical
all-"Unknown" persona record.  The Python method ignores its `text`
argument; the parameter is kept for fidelity. -/
def PersonaOutputParser._fallback_parse (_text : String) : UserPersonaModel :=
  { name := "Unknown User"
    age_range := "Unknown"
    location := "Unknown"
    occupation := "Unknown"
    status := "Unknown"
    tier := "Unknown"
    archetype := "Unknown"
    interests := ["Unknown"]
    personality_traits := ["Unknown"]
    goals := ["Unknown"]
    frustrations := ["Unknown"]
    preferred_subreddits := ["Unknown"]
    communication_style := "Unknown"
    technology_comfort := "Unknown"
    social_media_behavior := "Unknown"
    motivations := [("unknown", 50)]
    behavior_habits := ["Unknown"]
    personality_percentages :=
      [("introversion", 50), ("intuition", 50), ("feeling", 50), ("perceiving", 50)]
    citations := [] }

/-- The match of `re.search(r'\x7b.*\x7d', text, re.DOTALL)` on a list of
characters: the regex matches iff some open brace precedes some close
brace, and the (leftmost, greedy) match then spans from the first open
brace to the last close brace of the text. -/
def extractJsonChars (cs : List Char) : Option (List Char) :=
  let afterFirst := cs.dropWhile (fun c => c != '{')
  let upToLast := (afterFirst.reverse.dropWhile (fun c => c != '}')).reverse
  if upToLast.isEmpty then none else some upToLast

/-- String-level wrapper of `extractJsonChars`. -/
def extractJson (text : String) : Option String :=
  (extractJsonChars text.data).map String.mk

/-- `PersonaOutputParser.parse` (lines 122-135): search for the greedy
first-`\x7b`-to-last-`\x7d` substring; if found, decode it with
`json.loads` and validate with `UserPersonaModel.model_validate`;
on a missing match, a decode error or a validation error, return the
fallback record.  `jsonLoads` models the standard library decoder. -/
def PersonaOutputParser.parse (jsonLoads : String → Option Json) (text : String) :
    UserPersonaModel :=
  match extractJson text with
  | some s =>
    match jsonLoads s with
    | some j =>
      match UserPersonaModel.model_validate j with
      | some m => m
      | none => PersonaOutputParser._fallback_parse text
    | none => PersonaOutputParser._fallback_parse text
  | none => PersonaOutputParser._fallback_parse text

/-! ## The Reddit scraper (`RedditScraper`, lines 163-288) -/

/-- Python's `\s` / `str.strip` whitespace on the ASCII range (space, tab,
newline, carriage return, vertical tab, form feed).  Exotic Unicode
whitespace, which Python would also match, plays no role in any claim and
is not modelled. -/
def isPyWs (c : Char) : Bool :=
  c = ' ' || c = '\t' || c = '\n' || c = '\r' || c = '\x0b' || c = '\x0c'

/-- Python's `str.strip()`: drop whitespace from both ends. -/
def pyStrip (l : List Char) : List Char :=
  ((l.dropWhile isPyWs).reverse.dropWhile isPyWs).reverse

/-- String-level `str.strip()`. -/
def pyStripStr (s : String) : String :=
  String.mk (pyStrip s.data)

/-- Split a character list into its newline-separated lines.  The marker
substitutions of `_clean_content` use patterns compiled without
`re.DOTALL`, so their `(.*?)` groups cannot match `'\n'`: every match of
such a pattern lies entirely within one of these lines; they are the
units the substitutions act on. -/
def splitNl : List Char → List (List Char)
  | [] => [[]]
  | c :: rest =>
    if c = '\n' then [] :: splitNl rest
    else
      match splitNl rest with
      | [] => [[c]]
      | seg :: segs => (c :: seg) :: segs

/-- Rejoin line segments with newlines (left inverse of `splitNl`). -/
def joinNl : List (List Char) → List Char
  | [] => []
  | [seg] => seg
  | seg :: segs => seg ++ '\n' :: joinNl segs

/-- Single-line step machine for `re.sub(r'\*(.*?)\*', r'\1', ...)` (and
any other single-character pair delimiter `d`) applied to one
newline-free line: scanning left to right, each delimiter pairs lazily
with the next one on the line and the pair is dropped, keeping the
(delimiter-free) group between them; a delimiter with no partner on the
line is kept, together with everything after it on the line, unchanged
(retrying the pattern inside the failed region finds no further match
there, since the pending group holds no delimiter).  The state `some g`
means an opening delimiter has been consumed and `g` is the reversed
group read so far. -/
def subSingleGo (d : Char) : Option (List Char) → List Char → List Char
  | none, [] => []
  | none, c :: rest =>
    if c = d then subSingleGo d (some []) rest
    else c :: subSingleGo d none rest
  | some g, [] => d :: g.reverse
  | some g, c :: rest =>
    if c = d then g.reverse ++ subSingleGo d none rest
    else subSingleGo d (some (c :: g)) rest

/-- `re.sub(r'\*(.*?)\*', r'\1', l)` for delimiter character `d`.  The
pattern is compiled without `re.DOTALL`, so `(.*?)` never matches a
newline and every match lies within a single line: the substitution acts
on each newline-separated line independently and the newlines
themselves are untouched. -/
def subSingle (d : Char) (l : List Char) : List Char :=
  joinNl ((splitNl l).map (subSingleGo d none))

/-- Single-line step machine for `re.sub(r'\*\*(.*?)\*\*', r'\1', ...)`
and `re.sub(r'~~(.*?)~~', r'\1', ...)` applied to one newline-free line:
the delimiter is the two-character sequence `d`,`d`, the group is
matched lazily, and an opening delimiter with no closing one on the line
is kept together with everything after it on the line, unchanged (the
pending group holds no adjacent delimiter pair, so retrying the pattern
inside the failed region finds no further match there). -/
def subDoubleGo (d : Char) : Option (List Char) → List Char → List Char
  | none, [] => []
  | none, [c] => [c]
  | none, c₁ :: c₂ :: rest =>
    if c₁ = d ∧ c₂ = d then subDoubleGo d (some []) rest
    else c₁ :: subDoubleGo d none (c₂ :: rest)
  | some g, [] => d :: d :: g.reverse
  | some g, [c] => d :: d :: g.reverse ++ [c]
  | some g, c₁ :: c₂ :: rest =>
    if c₁ = d ∧ c₂ = d then g.reverse ++ subDoubleGo d none rest
    else subDoubleGo d (some (c₁ :: g)) (c₂ :: rest)

/-- `re.sub(r'\*\*(.*?)\*\*', r'\1', l)` (or the `~~` variant) for the
doubled delimiter character `d`.  As with `subSingle`, the pattern has
no `re.DOTALL`, so no match spans a newline and each newline-separated
line is handled independently. -/
def subDouble (d : Char) (l : List Char) : List Char :=
  joinNl ((splitNl l).map (subDoubleGo d none))

/-- Scanner state for `re.sub(r'\n\s*\n', '\n\n', ...)`: either outside a
candidate match, or having consumed a newline plus whitespace, where
`acc` is the (reversed) whitespace consumed since the most recent newline
and `nlSeen` records whether a second newline has appeared (the greedy
`\s*` extends the match to the last newline of the whitespace run). -/
inductive CState where
  | out : CState
  | inNl (acc : List Char) (nlSeen : Bool) : CState

/-- `re.sub(r'\n\s*\n', '\n\n', l)`: every whitespace run containing at
least two newlines is collapsed, from its first to its last newline, into
exactly two newlines. -/
def collapseGo : CState → List Char → List Char
  | .out, [] => []
  | .out, c :: rest =>
    if c = '\n' then collapseGo (.inNl [] false) rest
    else c :: collapseGo .out rest
  | .inNl acc nlSeen, [] =>
    (if nlSeen then ['\n', '\n'] else ['\n']) ++ acc.reverse
  | .inNl acc nlSeen, c :: rest =>
    if c = '\n' then collapseGo (.inNl [] true) rest
    else if isPyWs c then collapseGo (.inNl (c :: acc) nlSeen) rest
    else (if nlSeen then ['\n', '\n'] else ['\n']) ++ acc.reverse ++ c :: collapseGo .out rest

/-- `RedditScraper._clean_content` (lines 273-288): remove paired bold,
italic and strikethrough markers (per line, since those patterns are
compiled without `re.DOTALL` and thus never match across a newline),
collapse blank-line runs, and strip the ends.  The fourth substitution
of the source, `re.sub(r'(.*?)', r'\1', content)`, replaces every
(empty) match by itself and is the identity, so it has no counterpart
here.  `if not content: return ""` is the leading empty check. -/
def RedditScraper._clean_content (content : String) : String :=
  if content = "" then ""
  else
    String.mk (pyStrip (collapseGo CState.out
      (subDouble '~' (subSingle '*' (subDouble '*' content.data)))))

/-- The `data` payload of one raw listing item, as accessed through
`post_data.get(...)`: each field is `none` when the key is absent.  Items
whose payload would make the per-item construction raise (missing `data`
key, wrongly-typed body, …) are modelled as a `none` item (the exception
is caught per item and the item skipped). -/
structure RawPostData where
  title : Option String
  link_title : Option String
  selftext : Option String
  body : Option String
  subreddit : Option String
  permalink : Option String
  created_utc : Option Int
  score : Option Int
deriving DecidableEq

/-- `RedditPost` (lines 37-46).  `timestamp` keeps the raw `created_utc`
epoch seconds: the source renders them through the local-timezone
`datetime.fromtimestamp(...).strftime(...)`, whose exact text no claim
depends on. -/
structure RedditPost where
  title : String
  content : String
  subreddit : String
  url : String
  timestamp : Int
  upvotes : Int
  post_type : String
deriving DecidableEq

/-- The `RedditPost(...)` construction of `_scrape_content`
(lines 246-256), with every `.get` fallback of the source. -/
def RedditScraper.buildPost (content_type : String) (d : RawPostData) : RedditPost :=
  { title := d.title.getD (d.link_title.getD "No Title")
    content := RedditScraper._clean_content (d.selftext.getD (d.body.getD ""))
    subreddit := d.subreddit.getD "Unknown"
    url := "https://reddit.com" ++ d.permalink.getD ""
    timestamp := d.created_utc.getD 0
    upvotes := d.score.getD 0
    post_type := content_type }

/-- The per-item body of the `for item in items[:max_items]` loop
(lines 241-264): a malformed item (modelled `none`) is skipped, and a
built post is kept only if its cleaned content is non-blank and longer
than 10 characters. -/
def RedditScraper.processItem (content_type : String) (item : Option RawPostData) :
    Option RedditPost :=
  match item with
  | none => none
  | some d =>
    let post := RedditScraper.buildPost content_type d
    if pyStripStr post.content != "" && post.content.length > 10 then some post
    else none

/-- The decoded JSON shape of one category listing (lines 231-239):
either a dict with a `data.children` list, or a list whose dict-carrying
elements (`some children`) contribute their children while other elements
(`none`) are skipped, or anything else, which yields no items. -/
inductive ListingJson where
  | dictWithData (children : List (Option RawPostData)) : ListingJson
  | listOfParts (parts : List (Option (List (Option RawPostData)))) : ListingJson
  | other : ListingJson
deriving DecidableEq

/-- The `items` extraction of `_scrape_content` (lines 231-239). -/
def extractItems : ListingJson → List (Option RawPostData)
  | .dictWithData children => children
  | .listOfParts parts => (parts.filterMap id).flatten
  | .other => []

/-- `RedditScraper._scrape_content` (lines 217-271).  The HTTP GET,
`raise_for_status` and `response.json()` are external; `response = none`
models any of their failures, all caught by the enclosing `except`, which
logs and returns the empty list.  On success the first `max_items` items
of the listing are processed. -/
def RedditScraper._scrape_content (response : Option ListingJson)
    (content_type : String) (max_items : Nat) : List RedditPost :=
  match response with
  | none => []
  | some data =>
    ((extractItems data).take max_items).filterMap (RedditScraper.processItem content_type)

/-- Python's `needle in haystack` substring test on character lists. -/
def containsSub (needle : List Char) : List Char → Bool
  | [] => needle.isPrefixOf []
  | c :: rest => needle.isPrefixOf (c :: rest) || containsSub needle rest

/-- Split a character list at the first occurrence of `sep`, returning the
parts before and after it. -/
def splitAtSub (sep : List Char) : List Char → Option (List Char × List Char)
  | [] => none
  | c :: rest =>
    if sep.isPrefixOf (c :: rest) then some ([], (c :: rest).drop sep.length)
    else match splitAtSub sep rest with
      | some p => some (c :: p.1, p.2)
      | none => none

/-- `urllib.parse.urlparse`, restricted to what `_is_valid_reddit_url`
reads (netloc and path) and to absolute URLs of the `scheme://…` form:
the netloc runs from after `://` to the next `/`, `?` or `#`, and the
path from there to the next `?` or `#`.  A string without `://` has an
empty netloc. -/
def urlparseNetlocPath (url : String) : String × String :=
  match splitAtSub "://".data url.data with
  | none => ("", url)
  | some p =>
    let netloc := p.2.takeWhile (fun c => c != '/' && c != '?' && c != '#')
    let after := p.2.drop netloc.length
    let path := after.takeWhile (fun c => c != '?' && c != '#')
    (String.mk netloc, String.mk path)

/-- `RedditScraper._is_valid_reddit_url` (lines 209-215): the netloc must
be one of the three Reddit hosts and the path must contain `/user/`. -/
def RedditScraper._is_valid_reddit_url (url : String) : Bool :=
  let np := urlparseNetlocPath url
  (np.1 = "www.reddit.com" || np.1 = "reddit.com" || np.1 = "old.reddit.com") &&
    containsSub "/user/".data np.2.data

/-- The two category responses a profile scrape consumes (network input
of the two `_scrape_content` calls). -/
structure ScrapeEnv where
  submittedResp : Option ListingJson
  commentsResp : Option ListingJson

/-- `RedditScraper.scrape_profile` (lines 174-207): validate the URL
(raising `ValueError` — the spec's `InvalidInputError` — on failure,
modelled as `Except.error`), then concatenate the submitted-category and
comments-category results, each capped at `max_posts // 2`.  The
enclosing try/except re-raises, and `_scrape_content` is total, so a
valid URL always yields `Except.ok`. -/
def RedditScraper.scrape_profile (env : ScrapeEnv) (profile_url : String)
    (max_posts : Nat) : Except String (List RedditPost) :=
  if RedditScraper._is_valid_reddit_url profile_url then
    Except.ok (RedditScraper._scrape_content env.submittedResp "post" (max_posts / 2) ++
      RedditScraper._scrape_content env.commentsResp "comment" (max_posts / 2))
  else
    Except.error ("Invalid Reddit profile URL: " ++ profile_url)

/-! ## Prompt formatter, report writer, per-user orchestration -/

/-- Python `"".join(parts)` (string concatenation of a list). -/
def strJoin : List String → String
  | [] => ""
  | s :: rest => s ++ strJoin rest

/-- Python `str.upper()` (the arguments here are ASCII). -/
def pyUpper (s : String) : String :=
  String.mk (s.data.map Char.toUpper)

/-- Python `str.replace(a, b)` for single-character arguments. -/
def charReplace (a b : Char) (s : String) : String :=
  String.mk (s.data.map (fun c => if c = a then b else c))

/-- Python `str.title()`: a cased character is uppercased after a
non-alphabetic character and lowercased otherwise.  The flag carries
whether the previous character was alphabetic. -/
def pyTitleGo : Bool → List Char → List Char
  | _, [] => []
  | prevAlpha, c :: rest =>
    (if prevAlpha then c.toLower else c.toUpper) :: pyTitleGo c.isAlpha rest

/-- Python `str.title()`. -/
def pyTitle (s : String) : String :=
  String.mk (pyTitleGo false s.data)

/-- Python `s * n` string repetition (as in `"=" * 60`). -/
def strRepeat (n : Nat) (s : String) : String :=
  strJoin (List.replicate n s)

/-- The per-item block of `PersonaGenerator._format_posts_for_llm`
(lines 483-496), with the exact template whitespace of the source
f-string; `i` is the 1-based index from `enumerate(posts, 1)`.  Content
longer than 800 characters is cut to its first 800 characters followed
by "...".  The raw epoch timestamp stands in for its local-time
rendering (see `RedditPost.timestamp`). -/
def PersonaGenerator.formatPost (i : Nat) (post : RedditPost) : String :=
  let content := if post.content.length > 800
    then String.mk (post.content.data.take 800) ++ "..."
    else post.content
  "\n            === " ++ pyUpper post.post_type ++ " " ++ toString i ++
    " ===\n            Title: " ++ post.title ++
    "\n            Subreddit: r/" ++ post.subreddit ++
    "\n            Content: " ++ content ++
    "\n            Timestamp: " ++ toString post.timestamp ++
    "\n            Upvotes: " ++ toString post.upvotes ++
    "\n            URL: " ++ post.url ++ "\n            "

/-- The blocks of `_format_posts_for_llm` in input order, indexed from
`i` (the source enumerates from 1). -/
def formatFrom (i : Nat) : List RedditPost → List String
  | [] => []
  | p :: rest => PersonaGenerator.formatPost i p :: formatFrom (i + 1) rest

/-- Python `sep.join(parts)`. -/
def joinSep (sep : String) : List String → String
  | [] => ""
  | [s] => s
  | s :: s' :: rest => s ++ sep ++ joinSep sep (s' :: rest)

/-- `PersonaGenerator._format_posts_for_llm` (lines 479-498): render each
post as a block, in input order with 1-based indices, joined by
newlines. -/
def PersonaGenerator._format_posts_for_llm (posts : List RedditPost) : String :=
  joinSep "\n" (formatFrom 1 posts)

/-- `UserPersona` (lines 95-116) carries exactly the fields of
`UserPersonaModel`, and `generate_persona` (lines 450-470) copies them
over one-for-one, so the embedding reuses the same structure type. -/
abbrev UserPersona := UserPersonaModel

/-- One `• item` line per element (report list sections). -/
def bulletLines (items : List String) : String :=
  strJoin (items.map (fun x => "• " ++ x ++ "\n"))

/-- One `• r/name` line per subreddit. -/
def subredditLines (items : List String) : String :=
  strJoin (items.map (fun x => "• r/" ++ x ++ "\n"))

/-- The motivation lines of the report: label with underscores spaced
and title-cased, then `intensity/100`. -/
def motivationLines (ms : List (String × Int)) : String :=
  strJoin (ms.map (fun kv =>
    "• " ++ pyTitle (charReplace '_' ' ' kv.1) ++ ": " ++ toString kv.2 ++ "/100\n"))

/-- The quote lines of one citation category. -/
def citationLines (cs : List String) : String :=
  strJoin (cs.map (fun c => "  • " ++ c ++ "\n"))

/-- `personality_percentages.get(key, 50)` of the writer. -/
def percentD (m : List (String × Int)) (k : String) : Int :=
  (m.lookup k).getD 50

/-- The citations part of the report (lines 601-606): categories are
rendered in map order; a category with an empty quote list contributes
nothing at all (its header included), any other category contributes its
upper-cased, underscore-spaced header, its quote lines and a blank
line. -/
def citationsSection (cites : List (String × List String)) : String :=
  strJoin (cites.map (fun kv =>
    if kv.2.isEmpty then ""
    else charReplace '_' ' ' (pyUpper kv.1) ++ ":\n" ++ citationLines kv.2 ++ "\n"))

/-- Everything `PersonaWriter.write_persona_to_file` (lines 504-609)
writes before the per-category citation blocks, section for section in
source order.  `now` stands for
`datetime.now().strftime('%Y-%m-%d %H:%M:%S')`. -/
def PersonaWriter.writePreamble (persona : UserPersona) (username now : String) : String :=
  "USER PERSONA FOR REDDIT USER: " ++ username ++ "\n"
  ++ strRepeat 60 "=" ++ "\n"
  ++ "Generated on: " ++ now ++ "\n"
  ++ strRepeat 60 "=" ++ "\n\n"
  ++ "BASIC DEMOGRAPHICS\n" ++ strRepeat 20 "-" ++ "\n"
  ++ "Name: " ++ persona.name ++ "\n"
  ++ "Age Range: " ++ persona.age_range ++ "\n"
  ++ "Location: " ++ persona.location ++ "\n"
  ++ "Occupation: " ++ persona.occupation ++ "\n"
  ++ "Status: " ++ persona.status ++ "\n"
  ++ "Tier: " ++ persona.tier ++ "\n"
  ++ "Archetype: " ++ persona.archetype ++ "\n\n"
  ++ "INTERESTS\n" ++ strRepeat 20 "-" ++ "\n" ++ bulletLines persona.interests ++ "\n"
  ++ "PERSONALITY TRAITS\n" ++ strRepeat 20 "-" ++ "\n"
  ++ bulletLines persona.personality_traits ++ "\n"
  ++ "PERSONALITY ASSESSMENT (MBTI-Style)\n" ++ strRepeat 35 "-" ++ "\n"
  ++ "Introversion: " ++ toString (percentD persona.personality_percentages "introversion") ++ "%\n"
  ++ "  (0% = Extremely Extroverted, 100% = Extremely Introverted)\n\n"
  ++ "Intuition: " ++ toString (percentD persona.personality_percentages "intuition") ++ "%\n"
  ++ "  (0% = Extremely Sensing, 100% = Extremely Intuitive)\n\n"
  ++ "Feeling: " ++ toString (percentD persona.personality_percentages "feeling") ++ "%\n"
  ++ "  (0% = Extremely Thinking, 100% = Extremely Feeling)\n\n"
  ++ "Perceiving: " ++ toString (percentD persona.personality_percentages "perceiving") ++ "%\n"
  ++ "  (0% = Extremely Judging, 100% = Extremely Perceiving)\n\n"
  ++ "GOALS & ASPIRATIONS\n" ++ strRepeat 20 "-" ++ "\n" ++ bulletLines persona.goals ++ "\n"
  ++ "MOTIVATIONS (Intensity Scores)\n" ++ strRepeat 30 "-" ++ "\n"
  ++ motivationLines persona.motivations ++ "\n"
  ++ "FRUSTRATIONS & PAIN POINTS\n" ++ strRepeat 30 "-" ++ "\n"
  ++ bulletLines persona.frustrations ++ "\n"
  ++ "BEHAVIOR & HABITS\n" ++ strRepeat 20 "-" ++ "\n"
  ++ bulletLines persona.behavior_habits ++ "\n"
  ++ "PREFERRED SUBREDDITS\n" ++ strRepeat 20 "-" ++ "\n"
  ++ subredditLines persona.preferred_subreddits ++ "\n"
  ++ "BEHAVIORAL INSIGHTS\n" ++ strRepeat 20 "-" ++ "\n"
  ++ "Communication Style: " ++ persona.communication_style ++ "\n\n"
  ++ "Technology Comfort: " ++ persona.technology_comfort ++ "\n\n"
  ++ "Social Media Behavior: " ++ persona.social_media_behavior ++ "\n\n"
  ++ "SUPPORTING EVIDENCE & CITATIONS\n" ++ strRepeat 35 "=" ++ "\n"
  ++ "The following quotes from the user's posts and comments support each characteristic:\n\n"

/-- The full text written by `PersonaWriter.write_persona_to_file`:
the preamble followed by the citation blocks. -/
def PersonaWriter.writeContent (persona : UserPersona) (username now : String) : String :=
  PersonaWriter.writePreamble persona username now ++ citationsSection persona.citations

/-- `PersonaWriter.write_persona_to_file`: the written path
(`output/<username>_persona.txt`, with the default output directory) and
the written text. -/
def PersonaWriter.write_persona_to_file (persona : UserPersona) (username now : String) :
    String × String :=
  ("output/" ++ username ++ "_persona.txt", PersonaWriter.writeContent persona username now)

/-- Split a list at the first occurrence of `sep` repeatedly, keeping the
final tail, with explicit fuel (one unit per split; the list length
bounds the number of splits for nonempty `sep`). -/
def splitTailGo (sep : List Char) : Nat → List Char → List Char
  | 0, l => l
  | fuel + 1, l =>
    match splitAtSub sep l with
    | none => l
    | some p => splitTailGo sep fuel p.2

/-- Python `l.split(sep)[-1]`: the tail after the last counted occurrence
of `sep` in the left-to-right, non-overlapping scan (the whole list when
`sep` does not occur). -/
def afterLastSplit (sep : List Char) (l : List Char) : List Char :=
  splitTailGo sep l.length l

/-- Python `str.rstrip('/')`. -/
def rstripSlash (l : List Char) : List Char :=
  (l.reverse.dropWhile (fun c => c = '/')).reverse

/-- The username extraction of `process_single_user` (line 615):
`profile_url.split('/user/')[-1].rstrip('/')`. -/
def processUsername (profile_url : String) : String :=
  String.mk (rstripSlash (afterLastSplit "/user/".data profile_url.data))

/-- Outcome of `process_single_user` (lines 612-647): an exception caught
by the per-profile handler (error printed, empty path returned, no file
written), the no-posts early return (message printed, no file written),
or a written report file. -/
inductive ProcessResult where
  | errored (msg : String) : ProcessResult
  | noPosts : ProcessResult
  | success (filepath : String) (content : String) : ProcessResult

/-- `process_single_user` (lines 612-647): scrape with the hardcoded
`max_posts=50`; on an empty result print "No posts found" and stop
without writing; otherwise run the generation chain (prompt, LLM call —
`llmResponse` is its raw text, `Except.error` a transport failure
propagating after retries — then `PersonaOutputParser.parse`, whose
fields `generate_persona` copies one-for-one into `UserPersona`) and
write the report file. -/
def process_single_user (env : ScrapeEnv) (jsonLoads : String → Option Json)
    (llmResponse : Except String String) (now : String) (profile_url : String) :
    ProcessResult :=
  let username := processUsername profile_url
  match RedditScraper.scrape_profile env profile_url 50 with
  | .error e => .errored e
  | .ok posts =>
    if posts.isEmpty then .noPosts
    else
      match llmResponse with
      | .error e => .errored e
      | .ok text =>
        let persona : UserPersona := PersonaOutputParser.parse jsonLoads text
        let fp := PersonaWriter.write_persona_to_file persona username now
        .success fp.1 fp.2


/-- The lazy search for the doubled delimiter `d`,`d`: the group before
the first occurrence and the remainder after it. -/
def findDD (d : Char) : List Char → Option (List Char × List Char)
  | [] => none
  | [_] => none
  | c₁ :: c₂ :: rest =>
    if c₁ = d ∧ c₂ = d then some ([], rest)
    else (findDD d (c₂ :: rest)).map (fun p => (c₁ :: p.1, p.2))

/-- Whether a list holds two disjoint occurrences of the doubled
delimiter `d`,`d` — exactly when the regex `dd(.*?)dd` has a match. -/
def containsDisjointDD (d : Char) (l : List Char) : Bool :=
  match findDD d l with
  | none => false
  | some p => (findDD d p.2).isSome


/-! ## Theorems -/

/-- C1: for every model response that has no JSON-looking substring, fails
to decode, or fails schema validation, `PersonaOutputParser.parse` returns
(totally, never raising) the fallback record with every required field set
to its defined fallback value. -/
theorem c1_parse_malformed_fallback (jsonLoads : String → Option Json) (text : String)
    (h : extractJson text = none
       ∨ (∃ s, extractJson text = some s ∧ jsonLoads s = none)
       ∨ (∃ s j, extractJson text = some s ∧ jsonLoads s = some j ∧
            UserPersonaModel.model_validate j = none)) :
    PersonaOutputParser.parse jsonLoads text = PersonaOutputParser._fallback_parse text ∧
    (PersonaOutputParser.parse jsonLoads text).name = "Unknown User" ∧
    (PersonaOutputParser.parse jsonLoads text).age_range = "Unknown" ∧
    (PersonaOutputParser.parse jsonLoads text).location = "Unknown" ∧
    (PersonaOutputParser.parse jsonLoads text).occupation = "Unknown" ∧
    (PersonaOutputParser.parse jsonLoads text).status = "Unknown" ∧
    (PersonaOutputParser.parse jsonLoads text).tier = "Unknown" ∧
    (PersonaOutputParser.parse jsonLoads text).archetype = "Unknown" ∧
    (PersonaOutputParser.parse jsonLoads text).interests = ["Unknown"] ∧
    (PersonaOutputParser.parse jsonLoads text).personality_traits = ["Unknown"] ∧
    (PersonaOutputParser.parse jsonLoads text).goals = ["Unknown"] ∧
    (PersonaOutputParser.parse jsonLoads text).frustrations = ["Unknown"] ∧
    (PersonaOutputParser.parse jsonLoads text).preferred_subreddits = ["Unknown"] ∧
    (PersonaOutputParser.parse jsonLoads text).communication_style = "Unknown" ∧
    (PersonaOutputParser.parse jsonLoads text).technology_comfort = "Unknown" ∧
    (PersonaOutputParser.parse jsonLoads text).social_media_behavior = "Unknown" ∧
    (PersonaOutputParser.parse jsonLoads text).motivations = [("unknown", 50)] ∧
    (PersonaOutputParser.parse jsonLoads text).personality_percentages =
      [("introversion", 50), ("intuition", 50), ("feeling", 50), ("perceiving", 50)] ∧
    (PersonaOutputParser.parse jsonLoads text).citations = [] := by
  have hmain : PersonaOutputParser.parse jsonLoads text =
      PersonaOutputParser._fallback_parse text := by
    rcases h with h | ⟨s, hs, hd⟩ | ⟨s, j, hs, hd, hv⟩
    · simp [PersonaOutputParser.parse, h]
    · simp [PersonaOutputParser.parse, hs, hd]
    · simp [PersonaOutputParser.parse, hs, hd, hv]
  refine ⟨hmain, ?_⟩
  rw [hmain]
  exact ⟨rfl, rfl, rfl, rfl, rfl, rfl, rfl, rfl, rfl, rfl, rfl, rfl, rfl, rfl, rfl,
    rfl, rfl, rfl⟩

/-- Witness for C1 at a concrete malformed response (no braces at all). -/
theorem c1_witness :
    PersonaOutputParser.parse (fun _ => none) "I could not produce valid output." =
      PersonaOutputParser._fallback_parse "I could not produce valid output." :=
  (c1_parse_malformed_fallback (fun _ => none) "I could not produce valid output."
    (Or.inl (by decide))).1

/-- C2: for every valid profile URL and requested maximum `n`,
`scrape_profile` succeeds with the submitted-category results followed by
the comments-category results, each category contributes at most `n / 2`
items, the total is at most `n`, and each category's items are taken from
the front of its listing (only the first `n / 2` children matter). -/
theorem c2_scrape_profile_max_items (env : ScrapeEnv) (url : String) (n : Nat)
    (h : RedditScraper._is_valid_reddit_url url = true) :
    RedditScraper.scrape_profile env url n =
      Except.ok (RedditScraper._scrape_content env.submittedResp "post" (n / 2) ++
        RedditScraper._scrape_content env.commentsResp "comment" (n / 2)) ∧
    (∀ resp ct, (RedditScraper._scrape_content resp ct (n / 2)).length ≤ n / 2) ∧
    (RedditScraper._scrape_content env.submittedResp "post" (n / 2) ++
      RedditScraper._scrape_content env.commentsResp "comment" (n / 2)).length ≤ n ∧
    (∀ children ct,
      RedditScraper._scrape_content (some (ListingJson.dictWithData children)) ct (n / 2) =
      RedditScraper._scrape_content (some (ListingJson.dictWithData (children.take (n / 2))))
        ct (n / 2)) := by
  have hb : ∀ resp ct, (RedditScraper._scrape_content resp ct (n / 2)).length ≤ n / 2 := by
    intro resp ct
    cases resp with
    | none => simp [RedditScraper._scrape_content]
    | some data =>
      simp only [RedditScraper._scrape_content]
      exact le_trans (List.length_filterMap_le _ _) (List.length_take_le _ _)
  refine ⟨by simp [RedditScraper.scrape_profile, h], hb, ?_, ?_⟩
  · rw [List.length_append]
    have h₁ := hb env.submittedResp "post"
    have h₂ := hb env.commentsResp "comment"
    omega
  · intro children ct
    simp [RedditScraper._scrape_content, extractItems, List.take_take]

/-- Witness for C2 at a concrete valid URL. -/
theorem c2_witness :
    RedditScraper.scrape_profile { submittedResp := none, commentsResp := none }
      "https://www.reddit.com/user/kojied/" 50 =
      Except.ok (RedditScraper._scrape_content none "post" 25 ++
        RedditScraper._scrape_content none "comment" 25) :=
  (c2_scrape_profile_max_items { submittedResp := none, commentsResp := none }
    "https://www.reddit.com/user/kojied/" 50 (by decide)).1

/-- C3: a raw item whose cleaned content is blank or shorter than 10
characters is dropped by the per-item filter; concretely, of two raw
items with selftexts "ok" (2 characters) and "this is a long enough
comment", the category scrape keeps exactly one post, built from the
second item. -/
theorem c3_short_content_filtered (ct : String) (d : RawPostData)
    (h : pyStripStr (RedditScraper.buildPost ct d).content = "" ∨
         (RedditScraper.buildPost ct d).content.length < 10) :
    RedditScraper.processItem ct (some d) = none ∧
    RedditScraper._scrape_content
      (some (ListingJson.dictWithData
        [some { title := none, link_title := none, selftext := some "ok", body := none,
                subreddit := none, permalink := none, created_utc := none, score := none },
         some { title := none, link_title := none,
                selftext := some "this is a long enough comment", body := none,
                subreddit := none, permalink := none, created_utc := none, score := none }]))
      "post" 25 =
      [{ title := "No Title", content := "this is a long enough comment",
         subreddit := "Unknown", url := "https://reddit.com", timestamp := 0,
         upvotes := 0, post_type := "post" }] := by
  constructor
  · simp only [RedditScraper.processItem]
    rcases h with h | h
    · simp [h]
    · have h' : ¬ ((RedditScraper.buildPost ct d).content.length > 10) := by omega
      simp [h']
  · decide

/-- Witness for C3 at the "ok" scenario item. -/
theorem c3_witness :
    RedditScraper.processItem "post"
      (some { title := none, link_title := none, selftext := some "ok", body := none,
              subreddit := none, permalink := none, created_utc := none,
              score := none }) = none :=
  (c3_short_content_filtered "post"
    { title := none, link_title := none, selftext := some "ok", body := none,
      subreddit := none, permalink := none, created_utc := none, score := none }
    (Or.inr (by decide))).1

/-- C6: a failed category fetch (network, HTTP status or JSON decode,
all modelled by `response = none`) yields the empty list for that
category — `_scrape_content` is a total function, so no exception
escapes it — and the other category's results still make up the
successful profile result. -/
theorem c6_category_failure_isolated (env : ScrapeEnv) (url : String) (n : Nat)
    (ct : String) (m : Nat)
    (hvalid : RedditScraper._is_valid_reddit_url url = true) :
    RedditScraper._scrape_content none ct m = [] ∧
    RedditScraper.scrape_profile
        { submittedResp := none, commentsResp := env.commentsResp } url n =
      Except.ok (RedditScraper._scrape_content env.commentsResp "comment" (n / 2)) ∧
    RedditScraper.scrape_profile
        { submittedResp := env.submittedResp, commentsResp := none } url n =
      Except.ok (RedditScraper._scrape_content env.submittedResp "post" (n / 2)) := by
  refine ⟨rfl, ?_, ?_⟩
  · simp [RedditScraper.scrape_profile, hvalid, RedditScraper._scrape_content]
  · simp [RedditScraper.scrape_profile, hvalid, RedditScraper._scrape_content]

/-- Witness for C6: submitted category fails, comments category still
delivered. -/
theorem c6_witness :
    RedditScraper.scrape_profile
        { submittedResp := none, commentsResp := some ListingJson.other }
      "https://www.reddit.com/user/kojied/" 50 =
      Except.ok (RedditScraper._scrape_content (some ListingJson.other) "comment" 25) :=
  (c6_category_failure_isolated
    { submittedResp := none, commentsResp := some ListingJson.other }
    "https://www.reddit.com/user/kojied/" 50 "post" 0 (by decide)).2.1

/-- C7 counterexample: the claim says the URL
`https://www.reddit.com/user/example/` fails validation and raises
`InvalidInputError`; in the code its netloc is `www.reddit.com` and its
path contains `/user/`, so validation accepts it and `scrape_profile`
returns normally. -/
theorem c7_counterexample :
    RedditScraper._is_valid_reddit_url "https://www.reddit.com/user/example/" = true ∧
    RedditScraper.scrape_profile { submittedResp := none, commentsResp := none }
      "https://www.reddit.com/user/example/" 50 = Except.ok [] := by
  exact ⟨by decide, rfl⟩

/-- C7 amended: `https://www.reddit.com/user/example/` passes URL
validation, so `scrape_profile` on it returns normally instead of
raising; the invalid-input error is raised exactly for URLs failing the
domain/user-path check, such as `https://www.reddit.com/r/example/`. -/
theorem c7_url_validation_amended :
    RedditScraper._is_valid_reddit_url "https://www.reddit.com/user/example/" = true ∧
    (∀ env n, RedditScraper.scrape_profile env "https://www.reddit.com/user/example/" n =
      Except.ok (RedditScraper._scrape_content env.submittedResp "post" (n / 2) ++
        RedditScraper._scrape_content env.commentsResp "comment" (n / 2))) ∧
    RedditScraper._is_valid_reddit_url "https://www.reddit.com/r/example/" = false ∧
    (∀ env url n, RedditScraper._is_valid_reddit_url url = false →
      RedditScraper.scrape_profile env url n =
        Except.error ("Invalid Reddit profile URL: " ++ url)) := by
  have hv : RedditScraper._is_valid_reddit_url "https://www.reddit.com/user/example/" = true := by
    decide
  refine ⟨hv, ?_, by decide, ?_⟩
  · intro env n
    simp [RedditScraper.scrape_profile, hv]
  · intro env url n h
    simp [RedditScraper.scrape_profile, h]

/-- Witness for C7's amended claim at a concrete rejected URL. -/
theorem c7_witness :
    RedditScraper.scrape_profile { submittedResp := none, commentsResp := none }
      "https://www.reddit.com/r/example/" 50 =
      Except.error "Invalid Reddit profile URL: https://www.reddit.com/r/example/" :=
  c7_url_validation_amended.2.2.2 { submittedResp := none, commentsResp := none }
    "https://www.reddit.com/r/example/" 50 (by decide)

/-- Dropping while a predicate holds skips a block that satisfies it. -/
theorem dropWhile_append_of_forall {p : Char → Bool} {l₁ l₂ : List Char}
    (h : ∀ c ∈ l₁, p c = true) : (l₁ ++ l₂).dropWhile p = l₂.dropWhile p := by
  induction l₁ with
  | nil => rfl
  | cons c l ih =>
    have hc := h c (List.mem_cons_self c l)
    simp only [List.cons_append, List.dropWhile_cons, hc, if_true]
    exact ih (fun x hx => h x (List.mem_cons_of_mem c hx))

/-- The regex search of `parse` on a text of the form
`prose ⬝ object ⬝ prose`: with no open brace before the object and no
close brace after it, the match is exactly the object. -/
theorem extractJsonChars_embedded (pre s post : List Char)
    (hpre : ∀ c ∈ pre, c ≠ '{') (hpost : ∀ c ∈ post, c ≠ '}')
    (hs1 : s.head? = some '{') (hs2 : s.getLast? = some '}') :
    extractJsonChars (pre ++ s ++ post) = some s := by
  obtain ⟨t, rfl⟩ : ∃ t, s = '{' :: t := by
    cases s with
    | nil => simp at hs1
    | cons a t =>
      simp only [List.head?_cons, Option.some.injEq] at hs1
      exact ⟨t, by rw [hs1]⟩
  have hrev : ∃ u, ('{' :: t).reverse = '}' :: u := by
    have hh : ('{' :: t).reverse.head? = some '}' := by
      rw [List.head?_reverse]; exact hs2
    cases h : ('{' :: t).reverse with
    | nil => rw [h] at hh; simp at hh
    | cons a u =>
      rw [h] at hh
      simp only [List.head?_cons, Option.some.injEq] at hh
      exact ⟨u, by rw [hh]⟩
  obtain ⟨u, hu⟩ := hrev
  unfold extractJsonChars
  have h₁ : (pre ++ ('{' :: t) ++ post).dropWhile (fun c => c != '{') =
      ('{' :: t) ++ post := by
    rw [List.append_assoc]
    rw [dropWhile_append_of_forall (fun c hc => by simpa using hpre c hc)]
    simp [List.dropWhile_cons]
  rw [h₁]
  have h₂ : (('{' :: t) ++ post).reverse.dropWhile (fun c => c != '}') =
      ('{' :: t).reverse := by
    rw [List.reverse_append]
    rw [dropWhile_append_of_forall
      (fun c hc => by simpa using hpost c (List.mem_reverse.mp hc))]
    rw [hu]
    simp [List.dropWhile_cons]
  simp only [h₂, List.reverse_reverse]
  rfl

/-- C5: on a response consisting of one schema-conforming JSON object
(first `\x7b`, last `\x7d`) embedded in prose, `parse` extracts exactly
the object substring, decodes and validates it, and returns the
validated record, ignoring the prose. -/
theorem c5_parse_embedded_json (jsonLoads : String → Option Json)
    (pre s post : String) (j : Json) (m : UserPersonaModel)
    (hpre : ∀ c ∈ pre.data, c ≠ '{') (hpost : ∀ c ∈ post.data, c ≠ '}')
    (hs1 : s.data.head? = some '{') (hs2 : s.data.getLast? = some '}')
    (hdec : jsonLoads s = some j)
    (hval : UserPersonaModel.model_validate j = some m) :
    extractJson (pre ++ s ++ post) = some s ∧
    PersonaOutputParser.parse jsonLoads (pre ++ s ++ post) = m := by
  have hx : extractJson (pre ++ s ++ post) = some s := by
    unfold extractJson
    have hdata : (pre ++ s ++ post).data = pre.data ++ s.data ++ post.data := by
      simp
    rw [hdata, extractJsonChars_embedded pre.data s.data post.data hpre hpost hs1 hs2]
    rfl
  refine ⟨hx, ?_⟩
  unfold PersonaOutputParser.parse
  rw [hx]
  simp only [hdec, hval]

/-- Witness for C5: a full schema-conforming object embedded in prose
(the decoder stub returns the decoded object of the embedded text). -/
theorem c5_witness :
    PersonaOutputParser.parse
      (fun _ =>
        some (Json.obj
          [("name", Json.str "Tech Professional"),
           ("age_range", Json.str "25-35"),
           ("location", Json.str "Unknown"),
           ("occupation", Json.str "Engineer"),
           ("status", Json.str "Professional"),
           ("tier", Json.str "Advanced"),
           ("archetype", Json.str "The Creator"),
           ("interests", Json.arr [Json.str "ai"]),
           ("personality_traits", Json.arr [Json.str "curious"]),
           ("goals", Json.arr [Json.str "learn"]),
           ("frustrations", Json.arr [Json.str "bugs"]),
           ("preferred_subreddits", Json.arr [Json.str "programming"]),
           ("communication_style", Json.str "direct"),
           ("technology_comfort", Json.str "High"),
           ("social_media_behavior", Json.str "lurker"),
           ("motivations", Json.obj [("achievement", Json.num 75)]),
           ("behavior_habits", Json.arr [Json.str "posts at night"]),
           ("personality_percentages",
            Json.obj [("introversion", Json.num 65), ("intuition", Json.num 80),
                      ("feeling", Json.num 45), ("perceiving", Json.num 70)]),
           ("citations", Json.obj [("interests", Json.arr [Json.str "quote: i love ai"])])]))
      ("Here is the result: " ++ "\x7b\"name\": \"Tech Professional\"\x7d" ++ " Thanks!") =
      { name := "Tech Professional", age_range := "25-35", location := "Unknown",
        occupation := "Engineer", status := "Professional", tier := "Advanced",
        archetype := "The Creator", interests := ["ai"],
        personality_traits := ["curious"], goals := ["learn"],
        frustrations := ["bugs"], preferred_subreddits := ["programming"],
        communication_style := "direct", technology_comfort := "High",
        social_media_behavior := "lurker", motivations := [("achievement", 75)],
        behavior_habits := ["posts at night"],
        personality_percentages :=
          [("introversion", 65), ("intuition", 80), ("feeling", 45), ("perceiving", 70)],
        citations := [("interests", ["quote: i love ai"])] } := by
  refine (c5_parse_embedded_json _ "Here is the result: "
    "\x7b\"name\": \"Tech Professional\"\x7d" " Thanks!" _ _
    (by decide) (by decide) (by decide) (by decide) rfl (by decide)).2

/-- `formatFrom` distributes over append, with the index advanced by the
length of the first part. -/
theorem formatFrom_append (i : Nat) (l₁ l₂ : List RedditPost) :
    formatFrom i (l₁ ++ l₂) = formatFrom i l₁ ++ formatFrom (i + l₁.length) l₂ := by
  induction l₁ generalizing i with
  | nil => simp [formatFrom]
  | cons p l ih =>
    simp only [List.cons_append, formatFrom, List.length_cons, List.append_eq]
    rw [ih (i + 1), (by omega : i + 1 + l.length = i + (l.length + 1))]

/-- Any element of a joined list appears contiguously in the join. -/
theorem joinSep_append_cons (sep : String) (l₁ l₂ : List String) (s : String) :
    ∃ a b, joinSep sep (l₁ ++ s :: l₂) = a ++ s ++ b := by
  induction l₁ with
  | nil =>
    cases l₂ with
    | nil => exact ⟨"", "", by simp [joinSep]⟩
    | cons t rest =>
      exact ⟨"", sep ++ joinSep sep (t :: rest), by simp [joinSep, String.append_assoc]⟩
  | cons c l ih =>
    obtain ⟨a, b, hab⟩ := ih
    cases hl : l ++ s :: l₂ with
    | nil => exact absurd hl (by simp)
    | cons x xs =>
      refine ⟨c ++ sep ++ a, b, ?_⟩
      have : joinSep sep (c :: (l ++ s :: l₂)) = c ++ sep ++ joinSep sep (l ++ s :: l₂) := by
        rw [hl]; rfl
      rw [List.cons_append, this, hab]
      simp [String.append_assoc]

/-- C8: every post of the formatter input is rendered, in input order,
as one block carrying its 1-based index, title, subreddit, content,
timestamp, score and URL; content over 800 characters is rendered as its
first 800 characters plus "...", shorter content verbatim. -/
theorem c8_format_truncation (pre suf : List RedditPost) (p : RedditPost) :
    (∃ a b, PersonaGenerator._format_posts_for_llm (pre ++ p :: suf) =
      a ++ PersonaGenerator.formatPost (pre.length + 1) p ++ b) ∧
    (p.content.length ≤ 800 → ∀ i,
      PersonaGenerator.formatPost i p =
        "\n            === " ++ pyUpper p.post_type ++ " " ++ toString i ++
        " ===\n            Title: " ++ p.title ++
        "\n            Subreddit: r/" ++ p.subreddit ++
        "\n            Content: " ++ p.content ++
        "\n            Timestamp: " ++ toString p.timestamp ++
        "\n            Upvotes: " ++ toString p.upvotes ++
        "\n            URL: " ++ p.url ++ "\n            ") ∧
    (800 < p.content.length → ∀ i,
      PersonaGenerator.formatPost i p =
        "\n            === " ++ pyUpper p.post_type ++ " " ++ toString i ++
        " ===\n            Title: " ++ p.title ++
        "\n            Subreddit: r/" ++ p.subreddit ++
        "\n            Content: " ++ (String.mk (p.content.data.take 800) ++ "...") ++
        "\n            Timestamp: " ++ toString p.timestamp ++
        "\n            Upvotes: " ++ toString p.upvotes ++
        "\n            URL: " ++ p.url ++ "\n            ") := by
  refine ⟨?_, ?_, ?_⟩
  · unfold PersonaGenerator._format_posts_for_llm
    rw [formatFrom_append]
    have h : formatFrom (1 + pre.length) (p :: suf) =
        PersonaGenerator.formatPost (pre.length + 1) p ::
          formatFrom (1 + pre.length + 1) suf := by
      rw [formatFrom, Nat.add_comm 1 pre.length]
    rw [h]
    exact joinSep_append_cons "\n" (formatFrom 1 pre) _ _
  · intro h i
    unfold PersonaGenerator.formatPost
    rw [if_neg (by omega)]
  · intro h i
    unfold PersonaGenerator.formatPost
    rw [if_pos (by omega)]

/-- Witness for C8 at a concrete short-content post. -/
theorem c8_witness :
    PersonaGenerator.formatPost 1
      { title := "T", content := "hello", subreddit := "sub", url := "u",
        timestamp := 0, upvotes := 3, post_type := "post" } =
      "\n            === " ++ pyUpper "post" ++ " " ++ toString 1 ++
      " ===\n            Title: " ++ "T" ++
      "\n            Subreddit: r/" ++ "sub" ++
      "\n            Content: " ++ "hello" ++
      "\n            Timestamp: " ++ toString (0 : Int) ++
      "\n            Upvotes: " ++ toString (3 : Int) ++
      "\n            URL: " ++ "u" ++ "\n            " :=
  (c8_format_truncation [] []
    { title := "T", content := "hello", subreddit := "sub", url := "u",
      timestamp := 0, upvotes := 3, post_type := "post" }).2.1 (by decide) 1

/-- `strJoin` distributes over list append. -/
theorem strJoin_append (l₁ l₂ : List String) :
    strJoin (l₁ ++ l₂) = strJoin l₁ ++ strJoin l₂ := by
  induction l₁ with
  | nil => simp [strJoin]
  | cons s l ih => simp [strJoin, ih, String.append_assoc]

/-- The citation rendering splits at list append. -/
theorem citationsSection_append (l₁ l₂ : List (String × List String)) :
    citationsSection (l₁ ++ l₂) = citationsSection l₁ ++ citationsSection l₂ := by
  unfold citationsSection
  rw [List.map_append, strJoin_append]

/-- A category with no quotes contributes nothing to the rendering. -/
theorem citationsSection_cons_empty (X : String) (l : List (String × List String)) :
    citationsSection ((X, []) :: l) = citationsSection l := by
  unfold citationsSection
  simp [strJoin]

/-- A category with quotes contributes its header and all its quote
lines. -/
theorem citationsSection_cons_nonempty (X q : String) (qs : List String)
    (l : List (String × List String)) :
    citationsSection ((X, q :: qs) :: l) =
      (charReplace '_' ' ' (pyUpper X) ++ ":\n" ++ citationLines (q :: qs) ++ "\n") ++
        citationsSection l := by
  unfold citationsSection
  simp [strJoin, String.append_assoc]

/-- C9: a citation category with an empty quote list is omitted from the
report entirely (the report equals the one for the persona without that
category), while a category with quotes is rendered with its header
followed by all of its quote lines. -/
theorem c9_citations_rendering (persona : UserPersona) (username now X : String)
    (pre suf : List (String × List String)) (q : String) (qs : List String) :
    (persona.citations = pre ++ (X, []) :: suf →
      PersonaWriter.writeContent persona username now =
        PersonaWriter.writeContent { persona with citations := pre ++ suf } username now) ∧
    (persona.citations = pre ++ (X, q :: qs) :: suf →
      ∃ a b, PersonaWriter.writeContent persona username now =
        a ++ (charReplace '_' ' ' (pyUpper X) ++ ":\n" ++ citationLines (q :: qs) ++ "\n") ++ b) := by
  constructor
  · intro h
    cases persona
    simp only at h
    subst h
    unfold PersonaWriter.writeContent
    congr 1
    rw [citationsSection_append, citationsSection_cons_empty, citationsSection_append]
  · intro h
    unfold PersonaWriter.writeContent
    rw [h, citationsSection_append, citationsSection_cons_nonempty]
    refine ⟨PersonaWriter.writePreamble persona username now ++ citationsSection pre,
      citationsSection suf, ?_⟩
    simp [String.append_assoc]

/-- Witness for C9: one empty and one populated citation category on a
concrete persona. -/
theorem c9_witness :
    PersonaWriter.writeContent
      { PersonaOutputParser._fallback_parse "" with
        citations := [("goals", []), ("interests", ["q"])] } "alice" "2026-01-01" =
      PersonaWriter.writeContent
        { PersonaOutputParser._fallback_parse "" with
          citations := [("interests", ["q"])] } "alice" "2026-01-01" :=
  (c9_citations_rendering
    { PersonaOutputParser._fallback_parse "" with
      citations := [("goals", []), ("interests", ["q"])] }
    "alice" "2026-01-01" "goals" [] [("interests", ["q"])] "q" []).1 rfl

/-- C10: for an odd requested maximum `n`, a successful scrape returns at
most `n - 1` items (each cap is the floor `n / 2`); for `n = 1` both caps
are `0`, so every category yields `[]` and a valid profile URL scrapes to
the empty list; and whenever the (hardcoded `max_posts=50`) scrape of
`process_single_user` comes back empty, the run reports no posts and
writes no report file. -/
theorem c10_odd_max_posts :
    (∀ env url n, n % 2 = 1 → RedditScraper._is_valid_reddit_url url = true →
      ∃ l, RedditScraper.scrape_profile env url n = Except.ok l ∧ l.length ≤ n - 1) ∧
    (∀ resp ct, RedditScraper._scrape_content resp ct (1 / 2) = []) ∧
    (∀ env url, RedditScraper._is_valid_reddit_url url = true →
      RedditScraper.scrape_profile env url 1 = Except.ok []) ∧
    (∀ env jsonLoads llmResponse now url,
      RedditScraper.scrape_profile env url 50 = Except.ok [] →
      process_single_user env jsonLoads llmResponse now url = ProcessResult.noPosts) := by
  have hcap : ∀ resp ct m, (RedditScraper._scrape_content resp ct m).length ≤ m := by
    intro resp ct m
    cases resp with
    | none => simp [RedditScraper._scrape_content]
    | some data =>
      simp only [RedditScraper._scrape_content]
      exact le_trans (List.length_filterMap_le _ _) (List.length_take_le _ _)
  have hzero : ∀ resp ct, RedditScraper._scrape_content resp ct 0 = [] := by
    intro resp ct
    cases resp with
    | none => rfl
    | some data => simp [RedditScraper._scrape_content]
  refine ⟨?_, ?_, ?_, ?_⟩
  · intro env url n hodd hvalid
    refine ⟨RedditScraper._scrape_content env.submittedResp "post" (n / 2) ++
      RedditScraper._scrape_content env.commentsResp "comment" (n / 2),
      by simp [RedditScraper.scrape_profile, hvalid], ?_⟩
    rw [List.length_append]
    have h₁ := hcap env.submittedResp "post" (n / 2)
    have h₂ := hcap env.commentsResp "comment" (n / 2)
    omega
  · intro resp ct
    exact hzero resp ct
  · intro env url hvalid
    simp [RedditScraper.scrape_profile, hvalid, hzero]
  · intro env jsonLoads llmResponse now url h
    unfold process_single_user
    rw [h]
    rfl

/-- Witness for C10: scraping one valid profile with `max_posts = 1`
yields nothing, and an empty 50-post scrape makes `process_single_user`
stop with the no-posts report. -/
theorem c10_witness :
    RedditScraper.scrape_profile { submittedResp := none, commentsResp := none }
      "https://www.reddit.com/user/kojied/" 1 = Except.ok [] ∧
    process_single_user { submittedResp := none, commentsResp := none } (fun _ => none)
      (Except.ok "no json") "2026-01-01" "https://www.reddit.com/user/kojied/" =
      ProcessResult.noPosts :=
  ⟨c10_odd_max_posts.2.2.1 { submittedResp := none, commentsResp := none }
      "https://www.reddit.com/user/kojied/" (by decide),
   c10_odd_max_posts.2.2.2 { submittedResp := none, commentsResp := none } (fun _ => none)
      (Except.ok "no json") "2026-01-01" "https://www.reddit.com/user/kojied/" rfl⟩

/-- Strong induction on list length. -/
theorem strongListInd {α : Type} {P : List α → Prop}
    (step : ∀ l, (∀ m : List α, m.length < l.length → P m) → P l) : ∀ l, P l := by
  have key : ∀ n (l : List α), l.length ≤ n → P l := by
    intro n
    induction n with
    | zero =>
      intro l hl
      exact step l (fun m hm => absurd hm (by omega))
    | succ n ih =>
      intro l hl
      exact step l (fun m hm => ih m (by omega))
  exact fun l => key l.length l le_rfl

/-- `findDD` ignores a leading character that does not open a match. -/
theorem findDD_cons_not (d c : Char) (l : List Char)
    (h : ¬(c = d ∧ l.head? = some d)) :
    findDD d (c :: l) = (findDD d l).map (fun p => (c :: p.1, p.2)) := by
  cases l with
  | nil => rfl
  | cons x r =>
    have hx : ¬(c = d ∧ x = d) := by
      intro ⟨h1, h2⟩; exact h ⟨h1, by simp [h2]⟩
    simp only [findDD, if_neg hx]

/-- A leading character that does not open a match does not change
whether `dd(.*?)dd` matches. -/
theorem containsDisjointDD_cons (d c : Char) (l : List Char)
    (h : ¬(c = d ∧ l.head? = some d)) :
    containsDisjointDD d (c :: l) = containsDisjointDD d l := by
  unfold containsDisjointDD
  rw [findDD_cons_not d c l h]
  cases findDD d l with
  | none => rfl
  | some p => rfl

/-- Dropping the head never creates a `findDD` match. -/
theorem findDD_cons_none (d c : Char) (l : List Char)
    (h : findDD d (c :: l) = none) : findDD d l = none := by
  cases l with
  | nil => rfl
  | cons x r =>
    by_cases hx : c = d ∧ x = d
    · simp [findDD, if_pos hx] at h
    · simp only [findDD, if_neg hx] at h
      cases hfd : findDD d (x :: r) with
      | none => rfl
      | some p => rw [hfd] at h; simp at h

/-- A head that does not pair with the next character preserves
`findDD`-freeness. -/
theorem findDD_cons_none_of (d c : Char) (l : List Char)
    (h : ¬(c = d ∧ l.head? = some d)) (hl : findDD d l = none) :
    findDD d (c :: l) = none := by
  rw [findDD_cons_not d c l h, hl]
  rfl

/-- A matched head pair forces the next character relation. -/
theorem findDD_none_head (d c : Char) (l : List Char)
    (h : findDD d (c :: l) = none) (hc : c = d) : l.head? ≠ some d := by
  intro hh
  cases l with
  | nil => simp at hh
  | cons x r =>
    simp only [List.head?_cons, Option.some.injEq] at hh
    have hcc : c = d ∧ x = d := ⟨hc, hh⟩
    unfold findDD at h
    rw [if_pos hcc] at h
    exact Option.noConfusion h

/-- `findDD` finds nothing in a list free of the delimiter. -/
theorem findDD_none_of_not_mem (d : Char) (l : List Char)
    (h : ∀ x ∈ l, x ≠ d) : findDD d l = none := by
  induction l with
  | nil => rfl
  | cons c r ih =>
    refine findDD_cons_none_of d c r (fun ⟨h1, _⟩ => ?_)
      (ih (fun x hx => h x (List.mem_cons_of_mem c hx)))
    exact h c (List.mem_cons_self c r) h1

/-- Appending one non-pairing character keeps `findDD`-freeness. -/
theorem findDD_append_single (d c : Char) (l : List Char)
    (h : findDD d l = none) (hb : ¬(l.getLast? = some d ∧ c = d)) :
    findDD d (l ++ [c]) = none := by
  induction l with
  | nil => rfl
  | cons x r ih =>
    have hr : findDD d r = none := findDD_cons_none d x r h
    have hrec : findDD d (r ++ [c]) = none := by
      refine ih hr (fun ⟨h1, h2⟩ => ?_)
      cases r with
      | nil => simp at h1
      | cons y t => exact hb ⟨by rw [List.getLast?_cons_cons]; exact h1, h2⟩
    refine findDD_cons_none_of d x (r ++ [c]) (fun ⟨h1, h2⟩ => ?_) hrec
    cases r with
    | nil =>
      simp only [List.nil_append, List.head?_cons, Option.some.injEq] at h2
      exact hb ⟨by simp [h1], by rw [h2]⟩
    | cons y t =>
      simp only [List.cons_append, List.head?_cons, Option.some.injEq] at h2
      exact absurd (findDD_none_head d x (y :: t) h h1) (by simp [h2])

/-- C4 counterexample: the claim says no bold, italic or strikethrough
marker survives cleaning, but markers do survive.  An unpaired marker is
kept: `_clean_content` maps `"~~"` to itself (a surviving strikethrough
marker) and `"*"` to itself (a surviving italic marker).  And because
the marker patterns are compiled without `re.DOTALL`, a pair whose group
would have to span a newline is also kept: `"*a\nb*"` is returned
unchanged with both asterisks, and cleaning `"~~a\nb~~ c ~~d~~"` leaves
two disjoint `~~` occurrences in the output. -/
theorem c4_counterexample :
    RedditScraper._clean_content "~~" = "~~" ∧
    containsSub "~~".data (RedditScraper._clean_content "~~").data = true ∧
    RedditScraper._clean_content "*" = "*" ∧
    RedditScraper._clean_content "*a\nb*" = "*a\nb*" ∧
    RedditScraper._clean_content "~~a\nb~~ c ~~d~~" = "~~a\nb c d~~" ∧
    containsDisjointDD '~' (RedditScraper._clean_content "~~a\nb~~ c ~~d~~").data
      = true :=
  ⟨by decide, by decide, by decide, by decide, by decide, by decide⟩

/-- The single-delimiter substitution leaves at most one delimiter in its
output: delimiters are removed in pairs, and only a final unpaired one
survives. -/
theorem subSingleGo_count (d : Char) :
    ∀ l : List Char,
      (subSingleGo d none l).count d ≤ 1 ∧
      (∀ g, g.count d = 0 → (subSingleGo d (some g) l).count d ≤ 1) := by
  intro l
  induction l with
  | nil =>
    refine ⟨by simp [subSingleGo], fun g hg => ?_⟩
    simp [subSingleGo, List.count_cons, List.count_reverse, hg]
  | cons c rest ih =>
    constructor
    · by_cases hc : c = d
      · simp only [subSingleGo, if_pos hc]
        exact ih.2 [] (by simp)
      · simp only [subSingleGo, if_neg hc]
        rw [List.count_cons]
        have := ih.1
        simp [hc]
        omega
    · intro g hg
      by_cases hc : c = d
      · simp only [subSingleGo, if_pos hc]
        rw [List.count_append, List.count_reverse, hg]
        simpa using ih.1
      · simp only [subSingleGo, if_neg hc]
        refine ih.2 (c :: g) ?_
        rw [List.count_cons, hg]
        simp [hc]

/-- The double-delimiter substitution only removes delimiter characters:
the count of any other character is preserved (state `some g` owns the
group read so far). -/
theorem subDoubleGo_count (d c : Char) (hc : c ≠ d) :
    ∀ l : List Char, ∀ st : Option (List Char),
      (subDoubleGo d st l).count c =
        (match st with | none => 0 | some g => g.count c) + l.count c := by
  refine strongListInd ?_
  intro l ih st
  have hdc : (d == c) = false := by simp [Ne.symm hc]
  have hcd : (c == d) = false := by simp [hc]
  match l with
  | [] =>
    cases st with
    | none => simp [subDoubleGo]
    | some g =>
      (simp [subDoubleGo, List.count_cons, List.count_reverse, hdc, hcd]) <;> omega
  | [x] =>
    cases st with
    | none => simp [subDoubleGo]
    | some g =>
      (simp [subDoubleGo, List.count_cons, List.count_append, List.count_reverse,
        hdc, hcd]) <;> omega
  | c₁ :: c₂ :: rest =>
    cases st with
    | none =>
      by_cases hop : c₁ = d ∧ c₂ = d
      · rw [subDoubleGo, if_pos hop]
        rw [ih rest (by simp only [List.length_cons]; omega) (some [])]
        (simp [List.count_cons, hop.1, hop.2, hdc, hcd]) <;> omega
      · rw [subDoubleGo, if_neg hop]
        rw [List.count_cons, ih (c₂ :: rest) (by simp only [List.length_cons]; omega) none]
        (simp [List.count_cons]) <;> omega
    | some g =>
      by_cases hop : c₁ = d ∧ c₂ = d
      · rw [subDoubleGo, if_pos hop]
        rw [List.count_append, List.count_reverse,
          ih rest (by simp only [List.length_cons]; omega) none]
        (simp [List.count_cons, hop.1, hop.2, hdc, hcd]) <;> omega
      · rw [subDoubleGo, if_neg hop]
        rw [ih (c₂ :: rest) (by simp only [List.length_cons]; omega) (some (c₁ :: g))]
        (simp [List.count_cons]) <;> omega

/-- The blank-line collapse never increases the count of a non-newline
character (in state `inNl acc _` the pending whitespace `acc` is still
owed to the output). -/
theorem collapseGo_count (c : Char) (hc : c ≠ '\n') :
    ∀ l : List Char,
      ((collapseGo CState.out l).count c ≤ l.count c) ∧
      (∀ acc ns, (collapseGo (CState.inNl acc ns) l).count c ≤
        acc.count c + l.count c) := by
  have hnc : ('\n' == c) = false := by simp [Ne.symm hc]
  have hcn : (c == '\n') = false := by simp [hc]
  intro l
  induction l with
  | nil =>
    refine ⟨by simp [collapseGo], fun acc ns => ?_⟩
    cases ns <;>
      · (simp [collapseGo, List.count_append, List.count_cons, List.count_reverse,
          hnc, hcn]) <;> omega
  | cons x rest ih =>
    constructor
    · by_cases hx : x = '\n'
      · subst hx
        rw [collapseGo, if_pos rfl]
        have h2 := ih.2 [] false
        simp only [List.count_nil, Nat.zero_add] at h2
        rw [List.count_cons]
        omega
      · rw [collapseGo, if_neg hx]
        rw [List.count_cons, List.count_cons]
        have h1 := ih.1
        omega
    · intro acc ns
      by_cases hx : x = '\n'
      · subst hx
        rw [collapseGo, if_pos rfl]
        have h2 := ih.2 [] true
        simp only [List.count_nil, Nat.zero_add] at h2
        rw [List.count_cons]
        omega
      · rw [collapseGo, if_neg hx]
        by_cases hw : isPyWs x = true
        · rw [if_pos hw]
          have h2 := ih.2 (x :: acc) ns
          rw [List.count_cons]
          rw [List.count_cons] at h2
          omega
        · rw [if_neg hw]
          have h1 := ih.1
          cases ns <;>
          · (simp [List.count_append, List.count_cons, List.count_nil,
              List.count_reverse, hnc, hcn]) <;> omega

/-- Stripping only removes characters. -/
theorem pyStrip_count (c : Char) (l : List Char) :
    (pyStrip l).count c ≤ l.count c := by
  unfold pyStrip
  rw [List.count_reverse]
  calc ((l.dropWhile isPyWs).reverse.dropWhile isPyWs).count c
      ≤ (l.dropWhile isPyWs).reverse.count c :=
        (List.dropWhile_sublist _).count_le c
    _ = (l.dropWhile isPyWs).count c := List.count_reverse c _
    _ ≤ l.count c := (List.dropWhile_sublist _).count_le c

/-- With no delimiter left in the input, the single-delimiter machine
flushes the pending opener and group unchanged. -/
theorem subSingleGo_some_no_d (d : Char) :
    ∀ l : List Char, d ∉ l → ∀ g, subSingleGo d (some g) l = d :: g.reverse ++ l := by
  intro l
  induction l with
  | nil => intro _ g; simp [subSingleGo]
  | cons c rest ih =>
    intro h g
    have hc : ¬ c = d := by rintro rfl; exact h (List.mem_cons_self c rest)
    rw [subSingleGo, if_neg hc]
    rw [ih (fun hd => h (List.mem_cons_of_mem c hd)) (c :: g)]
    simp [List.append_assoc]

/-- A list with at most one delimiter is untouched by the
single-delimiter substitution. -/
theorem subSingle_fix_of_count (d : Char) :
    ∀ l : List Char, l.count d ≤ 1 → subSingleGo d none l = l := by
  intro l
  induction l with
  | nil => intro _; rfl
  | cons c rest ih =>
    intro h
    by_cases hc : c = d
    · rw [subSingleGo, if_pos hc]
      have hrest : d ∉ rest := by
        rw [List.count_cons] at h
        rw [← List.count_eq_zero]
        simp [hc] at h
        omega
      rw [subSingleGo_some_no_d d rest hrest []]
      simp [hc]
    · rw [subSingleGo, if_neg hc]
      have h' : rest.count d ≤ 1 := by
        rw [List.count_cons] at h
        omega
      rw [ih h']

/-- A list with at most one delimiter is untouched by the
double-delimiter substitution. -/
theorem subDouble_fix_of_count (d : Char) :
    ∀ l : List Char, l.count d ≤ 1 → subDoubleGo d none l = l := by
  refine strongListInd ?_
  intro l ih h
  match l with
  | [] => rfl
  | [x] => rfl
  | c₁ :: c₂ :: rest =>
    have hop : ¬(c₁ = d ∧ c₂ = d) := by
      rintro ⟨rfl, rfl⟩
      simp [List.count_cons] at h
    rw [subDoubleGo, if_neg hop]
    have h' : (c₂ :: rest).count d ≤ 1 := by
      rw [List.count_cons, List.count_cons] at h
      rw [List.count_cons]
      omega
    rw [ih (c₂ :: rest) (by simp only [List.length_cons]; omega) h']

/-- With no closing delimiter pair in the input, the double-delimiter
machine flushes the pending opener and group unchanged. -/
theorem subDoubleGo_some_no_close (d : Char) :
    ∀ l : List Char, findDD d l = none → ∀ g,
      subDoubleGo d (some g) l = d :: d :: g.reverse ++ l := by
  intro l
  induction l with
  | nil => intro _ g; simp [subDoubleGo]
  | cons c rest ih =>
    intro h g
    cases rest with
    | nil => rfl
    | cons c₂ r₂ =>
      have hop : ¬(c = d ∧ c₂ = d) := by
        rintro ⟨h1, h2⟩
        unfold findDD at h
        rw [if_pos ⟨h1, h2⟩] at h
        exact Option.noConfusion h
      rw [subDoubleGo, if_neg hop]
      rw [ih (findDD_cons_none d c (c₂ :: r₂) h) (c :: g)]
      simp [List.append_assoc]

/-- A list without two disjoint delimiter pairs — no `dd(.*?)dd` match —
is untouched by the double-delimiter substitution. -/
theorem subDouble_fix_of_noDisj (d : Char) :
    ∀ l : List Char, containsDisjointDD d l = false → subDoubleGo d none l = l := by
  refine strongListInd ?_
  intro l ih h
  match l with
  | [] => rfl
  | [x] => rfl
  | c₁ :: c₂ :: rest =>
    by_cases hop : c₁ = d ∧ c₂ = d
    · rw [subDoubleGo, if_pos hop]
      have hfd : findDD d (c₁ :: c₂ :: rest) = some ([], rest) := by
        unfold findDD; rw [if_pos hop]
      have hrest : findDD d rest = none := by
        cases hr : findDD d rest with
        | none => rfl
        | some p =>
          exfalso
          unfold containsDisjointDD at h
          rw [hfd] at h
          have h2 : (findDD d rest).isSome = false := h
          rw [hr] at h2
          simp at h2
      rw [subDoubleGo_some_no_close d rest hrest []]
      simp [hop.1, hop.2]
    · rw [subDoubleGo, if_neg hop]
      have hcond : ¬(c₁ = d ∧ (c₂ :: rest).head? = some d) := by
        rintro ⟨h1, h2⟩
        simp only [List.head?_cons, Option.some.injEq] at h2
        exact hop ⟨h1, h2⟩
      have h' : containsDisjointDD d (c₂ :: rest) = false := by
        rw [← containsDisjointDD_cons d c₁ (c₂ :: rest) hcond]
        exact h
      rw [ih (c₂ :: rest) (by simp only [List.length_cons]; omega) h']

/-- The head emitted by the double-delimiter machine on a non-delimiter
head. -/
theorem subDoubleGo_none_head (d c : Char) (l : List Char) (hc : c ≠ d) :
    (subDoubleGo d none (c :: l)).head? = some c := by
  cases l with
  | nil => rfl
  | cons c₂ r => rw [subDoubleGo, if_neg (fun hp => hc hp.1)]; rfl

/-- Prepending a block with no delimiter pair, not pairing across the
boundary, does not change whether `dd(.*?)dd` matches. -/
theorem containsDisjointDD_append_left (d : Char) :
    ∀ a b : List Char, findDD d a = none →
      ¬(a.getLast? = some d ∧ b.head? = some d) →
      containsDisjointDD d (a ++ b) = containsDisjointDD d b := by
  intro a
  induction a with
  | nil => intro b _ _; rfl
  | cons c a' ih =>
    intro b h hb
    have ha' : findDD d a' = none := findDD_cons_none d c a' h
    have hstep : containsDisjointDD d (c :: (a' ++ b)) = containsDisjointDD d (a' ++ b) := by
      refine containsDisjointDD_cons d c (a' ++ b) ?_
      rintro ⟨h1, h2⟩
      cases a' with
      | nil =>
        exact hb ⟨by simp [h1], by simpa using h2⟩
      | cons x t =>
        simp only [List.cons_append, List.head?_cons, Option.some.injEq] at h2
        exact findDD_none_head d c (x :: t) h h1 (by simp [h2])
    rw [List.cons_append, hstep]
    refine ih b ha' ?_
    rintro ⟨h1, h2⟩
    cases a' with
    | nil => simp at h1
    | cons x t => exact hb ⟨by rw [List.getLast?_cons_cons]; exact h1, h2⟩

/-- The double-delimiter substitution never leaves two disjoint
delimiter pairs in its output: every complete span is removed, and at
most a tail chunk around an unclosed opener survives.  The `some g`
invariants: the group read so far has no pair, and its most recent
character pairs with the next input character only if neither is the
delimiter. -/
theorem subDoubleGo_noDisj (d : Char) :
    ∀ l : List Char,
      (containsDisjointDD d (subDoubleGo d none l) = false) ∧
      (∀ g, findDD d g.reverse = none → (g.head? = some d → l.head? ≠ some d) →
        containsDisjointDD d (subDoubleGo d (some g) l) = false) := by
  refine strongListInd ?_
  intro l ih
  constructor
  · match l with
    | [] => rfl
    | [x] => rfl
    | c₁ :: c₂ :: rest =>
      by_cases hop : c₁ = d ∧ c₂ = d
      · rw [subDoubleGo, if_pos hop]
        exact (ih rest (by simp only [List.length_cons]; omega)).2 []
          rfl (by simp)
      · rw [subDoubleGo, if_neg hop]
        have hrec := (ih (c₂ :: rest) (by simp only [List.length_cons]; omega)).1
        by_cases hc₁ : c₁ = d
        · have hc₂ : c₂ ≠ d := fun h2 => hop ⟨hc₁, h2⟩
          rw [containsDisjointDD_cons d c₁ _ ?_]
          · exact hrec
          · rintro ⟨_, h2⟩
            rw [subDoubleGo_none_head d c₂ rest hc₂] at h2
            simp only [Option.some.injEq] at h2
            exact hc₂ h2
        · rw [containsDisjointDD_cons d c₁ _ (fun hp => hc₁ hp.1)]
          exact hrec
  · intro g hg hcross
    match l with
    | [] =>
      show containsDisjointDD d (d :: d :: g.reverse) = false
      have hfd : findDD d (d :: d :: g.reverse) = some ([], g.reverse) := by
        unfold findDD
        rw [if_pos ⟨rfl, rfl⟩]
      unfold containsDisjointDD
      rw [hfd]
      show (findDD d g.reverse).isSome = false
      rw [hg]
      rfl
    | [c] =>
      show containsDisjointDD d (d :: d :: (g.reverse ++ [c])) = false
      have hap : findDD d (g.reverse ++ [c]) = none := by
        refine findDD_append_single d c g.reverse hg ?_
        rintro ⟨h1, h2⟩
        rw [List.getLast?_reverse] at h1
        exact hcross h1 (by simp [h2])
      have hfd : findDD d (d :: d :: (g.reverse ++ [c])) =
          some ([], g.reverse ++ [c]) := by
        unfold findDD
        rw [if_pos ⟨rfl, rfl⟩]
      unfold containsDisjointDD
      rw [hfd]
      show (findDD d (g.reverse ++ [c])).isSome = false
      rw [hap]
      rfl
    | c₁ :: c₂ :: rest =>
      by_cases hop : c₁ = d ∧ c₂ = d
      · rw [subDoubleGo, if_pos hop]
        rw [containsDisjointDD_append_left d g.reverse _ hg ?_]
        · exact (ih rest (by simp only [List.length_cons]; omega)).1
        · rintro ⟨h1, _⟩
          rw [List.getLast?_reverse] at h1
          exact hcross h1 (by simp [hop.1])
      · rw [subDoubleGo, if_neg hop]
        refine (ih (c₂ :: rest) (by simp only [List.length_cons]; omega)).2 (c₁ :: g) ?_ ?_
        · rw [List.reverse_cons]
          refine findDD_append_single d c₁ g.reverse hg ?_
          rintro ⟨h1, h2⟩
          rw [List.getLast?_reverse] at h1
          exact hcross h1 (by simp [h2])
        · intro h1 h2
          simp only [List.head?_cons, Option.some.injEq] at h1 h2
          exact hop ⟨h1, h2⟩

/-- Prepending delimiter-free characters preserves `findDD`-freeness. -/
theorem findDD_none_prepend (d : Char) :
    ∀ w m : List Char, (∀ x ∈ w, x ≠ d) → findDD d m = none →
      findDD d (w ++ m) = none := by
  intro w
  induction w with
  | nil => intro m _ h; exact h
  | cons c w' ih =>
    intro m hw h
    refine findDD_cons_none_of d c (w' ++ m) ?_
      (ih m (fun x hx => hw x (List.mem_cons_of_mem c hx)) h)
    rintro ⟨h1, _⟩
    exact hw c (List.mem_cons_self c w') h1

/-- Prepending delimiter-free characters does not change whether
`dd(.*?)dd` matches. -/
theorem containsDisjointDD_prepend (d : Char) :
    ∀ w m : List Char, (∀ x ∈ w, x ≠ d) →
      containsDisjointDD d (w ++ m) = containsDisjointDD d m := by
  intro w
  induction w with
  | nil => intro m _; rfl
  | cons c w' ih =>
    intro m hw
    rw [List.cons_append,
      containsDisjointDD_cons d c (w' ++ m)
        (fun hp => hw c (List.mem_cons_self c w') hp.1)]
    exact ih m (fun x hx => hw x (List.mem_cons_of_mem c hx))

/-- Inside a blank-line candidate the eventual emission starts with a
newline. -/
theorem collapseGo_inNl_head :
    ∀ (l : List Char) (acc : List Char) (ns : Bool),
      (collapseGo (CState.inNl acc ns) l).head? = some '\n' := by
  intro l
  induction l with
  | nil => intro acc ns; cases ns <;> rfl
  | cons c rest ih =>
    intro acc ns
    by_cases hc : c = '\n'
    · rw [collapseGo, if_pos hc]; exact ih [] true
    · rw [collapseGo, if_neg hc]
      by_cases hw : isPyWs c = true
      · rw [if_pos hw]; exact ih (c :: acc) ns
      · rw [if_neg hw]; cases ns <;> rfl

/-- The collapse output starts with the input's head or with a
newline. -/
theorem collapseGo_out_head (l : List Char) :
    (collapseGo CState.out l).head? = l.head? ∨
    (collapseGo CState.out l).head? = some '\n' := by
  cases l with
  | nil => exact Or.inl rfl
  | cons c rest =>
    by_cases hc : c = '\n'
    · exact Or.inr (by rw [collapseGo, if_pos hc]; exact collapseGo_inNl_head rest [] false)
    · exact Or.inl (by rw [collapseGo, if_neg hc]; rfl)

/-- The blank-line collapse preserves freeness of adjacent delimiter
pairs, for a non-whitespace delimiter. -/
theorem collapseGo_noDD (d : Char) (hd : isPyWs d = false) :
    ∀ l : List Char,
      (findDD d l = none → findDD d (collapseGo CState.out l) = none) ∧
      (∀ acc ns, (∀ x ∈ acc, isPyWs x = true) → findDD d l = none →
        findDD d (collapseGo (CState.inNl acc ns) l) = none) := by
  have hdn : d ≠ '\n' := by intro h; rw [h] at hd; simp [isPyWs] at hd
  have hflush : ∀ (acc : List Char) (ns : Bool), (∀ x ∈ acc, isPyWs x = true) →
      ∀ x ∈ (if ns = true then ['\n', '\n'] else ['\n']) ++ acc.reverse, x ≠ d := by
    intro acc ns hacc x hx hxd
    rcases List.mem_append.mp hx with h1 | h2
    · cases ns <;> simp at h1 <;> exact hdn (hxd.symm.trans h1)
    · rw [List.mem_reverse] at h2
      exact absurd (hacc x h2) (by rw [hxd]; simp [hd])
  intro l
  induction l with
  | nil =>
    constructor
    · intro _; rfl
    · intro acc ns hacc _
      exact findDD_none_of_not_mem d _ (hflush acc ns hacc)
  | cons c rest ih =>
    have hconsOut : findDD d (c :: rest) = none →
        findDD d (c :: collapseGo CState.out rest) = none := by
      intro h
      refine findDD_cons_none_of d c _ ?_ (ih.1 (findDD_cons_none d c rest h))
      rintro ⟨h1, h2⟩
      rcases collapseGo_out_head rest with he | he
      · rw [he] at h2
        exact findDD_none_head d c rest h h1 h2
      · rw [he] at h2
        exact hdn (Option.some.inj h2).symm
    constructor
    · intro h
      by_cases hc : c = '\n'
      · rw [collapseGo, if_pos hc]
        exact ih.2 [] false (by simp) (findDD_cons_none d c rest h)
      · rw [collapseGo, if_neg hc]
        exact hconsOut h
    · intro acc ns hacc h
      by_cases hc : c = '\n'
      · rw [collapseGo, if_pos hc]
        exact ih.2 [] true (by simp) (findDD_cons_none d c rest h)
      · rw [collapseGo, if_neg hc]
        by_cases hw : isPyWs c = true
        · rw [if_pos hw]
          refine ih.2 (c :: acc) ns ?_ (findDD_cons_none d c rest h)
          intro x hx
          rcases List.mem_cons.mp hx with hx' | hx'
          · rw [hx']; exact hw
          · exact hacc x hx'
        · rw [if_neg hw]
          exact findDD_none_prepend d _ _ (hflush acc ns hacc) (hconsOut h)

/-- The blank-line collapse preserves absence of a `dd(.*?)dd` match,
for a non-whitespace delimiter. -/
theorem collapseGo_noDisj (d : Char) (hd : isPyWs d = false) :
    ∀ l : List Char,
      (containsDisjointDD d l = false →
        containsDisjointDD d (collapseGo CState.out l) = false) ∧
      (∀ acc ns, (∀ x ∈ acc, isPyWs x = true) → containsDisjointDD d l = false →
        containsDisjointDD d (collapseGo (CState.inNl acc ns) l) = false) := by
  have hdn : d ≠ '\n' := by intro h; rw [h] at hd; simp [isPyWs] at hd
  have hflush : ∀ (acc : List Char) (ns : Bool), (∀ x ∈ acc, isPyWs x = true) →
      ∀ x ∈ (if ns = true then ['\n', '\n'] else ['\n']) ++ acc.reverse, x ≠ d := by
    intro acc ns hacc x hx hxd
    rcases List.mem_append.mp hx with h1 | h2
    · cases ns <;> simp at h1 <;> exact hdn (hxd.symm.trans h1)
    · rw [List.mem_reverse] at h2
      exact absurd (hacc x h2) (by rw [hxd]; simp [hd])
  intro l
  induction l with
  | nil =>
    constructor
    · intro _; rfl
    · intro acc ns hacc _
      show containsDisjointDD d
        ((if ns = true then ['\n', '\n'] else ['\n']) ++ acc.reverse) = false
      unfold containsDisjointDD
      rw [findDD_none_of_not_mem d _ (hflush acc ns hacc)]
  | cons c rest ih =>
    have core : containsDisjointDD d (c :: rest) = false →
        containsDisjointDD d (c :: collapseGo CState.out rest) = false := by
      intro h
      by_cases hpair : c = d ∧ rest.head? = some d
      · obtain ⟨hc1, hh⟩ := hpair
        cases rest with
        | nil => simp at hh
        | cons r₁ rest₂ =>
          simp only [List.head?_cons, Option.some.injEq] at hh
          rw [hc1, hh] at h ⊢
          have hfd : findDD d (d :: d :: rest₂) = some ([], rest₂) := by
            unfold findDD; rw [if_pos ⟨rfl, rfl⟩]
          have hrest₂ : findDD d rest₂ = none := by
            cases hr : findDD d rest₂ with
            | none => rfl
            | some p =>
              exfalso
              unfold containsDisjointDD at h
              rw [hfd] at h
              have h2 : (findDD d rest₂).isSome = false := h
              rw [hr] at h2
              simp at h2
          have hstep : collapseGo CState.out (d :: rest₂) =
              d :: collapseGo CState.out rest₂ := by
            rw [collapseGo, if_neg hdn]
          rw [hstep]
          have hout : findDD d (collapseGo CState.out rest₂) = none :=
            (collapseGo_noDD d hd rest₂).1 hrest₂
          have hfd2 : findDD d (d :: d :: collapseGo CState.out rest₂) =
              some ([], collapseGo CState.out rest₂) := by
            unfold findDD; rw [if_pos ⟨rfl, rfl⟩]
          unfold containsDisjointDD
          rw [hfd2]
          show (findDD d (collapseGo CState.out rest₂)).isSome = false
          rw [hout]
          rfl
      · have hIn : containsDisjointDD d rest = false := by
          rw [← containsDisjointDD_cons d c rest hpair]
          exact h
        rw [containsDisjointDD_cons d c _ ?_]
        · exact ih.1 hIn
        · rintro ⟨h1, h2⟩
          rcases collapseGo_out_head rest with he | he
          · rw [he] at h2
            exact hpair ⟨h1, h2⟩
          · rw [he] at h2
            exact hdn (Option.some.inj h2).symm
    constructor
    · intro h
      by_cases hc : c = '\n'
      · rw [collapseGo, if_pos hc]
        refine ih.2 [] false (by simp) ?_
        rw [← containsDisjointDD_cons d c rest
          (fun hp => hdn (hp.1.symm.trans hc))]
        exact h
      · rw [collapseGo, if_neg hc]
        exact core h
    · intro acc ns hacc h
      by_cases hc : c = '\n'
      · rw [collapseGo, if_pos hc]
        refine ih.2 [] true (by simp) ?_
        rw [← containsDisjointDD_cons d c rest
          (fun hp => hdn (hp.1.symm.trans hc))]
        exact h
      · rw [collapseGo, if_neg hc]
        by_cases hw : isPyWs c = true
        · rw [if_pos hw]
          refine ih.2 (c :: acc) ns ?_ ?_
          · intro x hx
            rcases List.mem_cons.mp hx with hx' | hx'
            · rw [hx']; exact hw
            · exact hacc x hx'
          · rw [← containsDisjointDD_cons d c rest
              (fun hp => absurd (hp.1 ▸ hw) (by simp [hd]))]
            exact h
        · rw [if_neg hw]
          rw [containsDisjointDD_prepend d _ _ (hflush acc ns hacc)]
          exact core h

/-- A `findDD` hit survives prepending a character. -/
theorem findDD_isSome_cons (d c : Char) (m : List Char)
    (h : (findDD d m).isSome = true) : (findDD d (c :: m)).isSome = true := by
  cases m with
  | nil => simp [findDD] at h
  | cons x t =>
    by_cases hp : c = d ∧ x = d
    · unfold findDD; rw [if_pos hp]; rfl
    · unfold findDD; rw [if_neg hp]
      simpa using h

/-- A `findDD` hit in a suffix is a hit in the whole list. -/
theorem findDD_isSome_of_suffix (d : Char) (s t : List Char) (hs : s <:+ t)
    (h : (findDD d s).isSome = true) : (findDD d t).isSome = true := by
  obtain ⟨a, rfl⟩ := hs
  induction a with
  | nil => exact h
  | cons c a' ih => exact findDD_isSome_cons d c _ ih

/-- The remainder returned by `findDD` is a suffix of the tail. -/
theorem findDD_snd_suffix (d : Char) :
    ∀ l p, findDD d l = some p → p.2 <:+ l.tail := by
  refine strongListInd ?_
  intro l ih p h
  match l with
  | [] => exact Option.noConfusion h
  | [x] => exact Option.noConfusion h
  | c₁ :: c₂ :: rest =>
    by_cases hp : c₁ = d ∧ c₂ = d
    · unfold findDD at h
      rw [if_pos hp] at h
      have : p = ([], rest) := (Option.some.inj h).symm
      rw [this]
      exact ⟨[c₂], rfl⟩
    · unfold findDD at h
      rw [if_neg hp] at h
      cases hq : findDD d (c₂ :: rest) with
      | none => rw [hq] at h; exact Option.noConfusion h
      | some q =>
        rw [hq] at h
        simp only [Option.map_some', Option.some.injEq] at h
        have hsub := ih (c₂ :: rest) (by simp only [List.length_cons]; omega) q hq
        have hp2 : p.2 = q.2 := by rw [← h]
        rw [hp2]
        exact hsub.trans ⟨[c₂], rfl⟩

/-- A `dd(.*?)dd` match survives prepending a character. -/
theorem containsDisjointDD_cons_mono (d c : Char) (m : List Char)
    (h : containsDisjointDD d m = true) : containsDisjointDD d (c :: m) = true := by
  by_cases hp : c = d ∧ m.head? = some d
  · obtain ⟨hc, hh⟩ := hp
    cases m with
    | nil => simp at hh
    | cons x t =>
      simp only [List.head?_cons, Option.some.injEq] at hh
      have hfd : findDD d (c :: x :: t) = some ([], t) := by
        unfold findDD; rw [if_pos ⟨hc, hh⟩]
      unfold containsDisjointDD at h ⊢
      rw [hfd]
      cases hfx : findDD d (x :: t) with
      | none => rw [hfx] at h; simp at h
      | some p =>
        rw [hfx] at h
        have h2 : (findDD d p.2).isSome = true := h
        have hsuf : p.2 <:+ t := by
          simpa using findDD_snd_suffix d (x :: t) p hfx
        exact findDD_isSome_of_suffix d p.2 t hsuf h2
  · rw [containsDisjointDD_cons d c m hp]
    exact h

/-- A `dd(.*?)dd` match in a suffix is a match in the whole list. -/
theorem containsDisjointDD_of_suffix (d : Char) (s t : List Char) (hs : s <:+ t)
    (h : containsDisjointDD d s = true) : containsDisjointDD d t = true := by
  obtain ⟨a, rfl⟩ := hs
  induction a with
  | nil => exact h
  | cons c a' ih => exact containsDisjointDD_cons_mono d c _ ih

/-- `findDD` extends along a right append. -/
theorem findDD_append_some (d : Char) :
    ∀ a : List Char, ∀ b p, findDD d a = some p →
      findDD d (a ++ b) = some (p.1, p.2 ++ b) := by
  refine strongListInd ?_
  intro a ih b p h
  match a with
  | [] => exact Option.noConfusion h
  | [x] => exact Option.noConfusion h
  | c₁ :: c₂ :: rest =>
    by_cases hp : c₁ = d ∧ c₂ = d
    · unfold findDD at h
      rw [if_pos hp] at h
      have hpe : p = ([], rest) := (Option.some.inj h).symm
      show findDD d (c₁ :: c₂ :: (rest ++ b)) = some (p.1, p.2 ++ b)
      unfold findDD
      rw [if_pos hp, hpe]
    · unfold findDD at h
      rw [if_neg hp] at h
      cases hq : findDD d (c₂ :: rest) with
      | none => rw [hq] at h; exact Option.noConfusion h
      | some q =>
        rw [hq] at h
        simp only [Option.map_some', Option.some.injEq] at h
        have hrec := ih (c₂ :: rest) (by simp only [List.length_cons]; omega) b q hq
        show findDD d (c₁ :: c₂ :: (rest ++ b)) = some (p.1, p.2 ++ b)
        unfold findDD
        rw [if_neg hp]
        have : findDD d (c₂ :: (rest ++ b)) = some (q.1, q.2 ++ b) := hrec
        rw [this]
        simp only [Option.map_some', Option.some.injEq]
        rw [← h]

/-- A `dd(.*?)dd` match in a prefix is a match in the whole list. -/
theorem containsDisjointDD_append_mono (d : Char) (a b : List Char)
    (h : containsDisjointDD d a = true) : containsDisjointDD d (a ++ b) = true := by
  unfold containsDisjointDD at h ⊢
  cases hfa : findDD d a with
  | none => rw [hfa] at h; simp at h
  | some p =>
    rw [hfa] at h
    rw [findDD_append_some d a b p hfa]
    have h2 : (findDD d p.2).isSome = true := h
    show (findDD d (p.2 ++ b)).isSome = true
    cases hf2 : findDD d p.2 with
    | none => rw [hf2] at h2; simp at h2
    | some q => rw [findDD_append_some d p.2 b q hf2]; rfl

/-- Stripping preserves absence of a `dd(.*?)dd` match. -/
theorem pyStrip_noDisj (d : Char) (l : List Char)
    (h : containsDisjointDD d l = false) :
    containsDisjointDD d (pyStrip l) = false := by
  cases hb : containsDisjointDD d (pyStrip l) with
  | false => rfl
  | true =>
    exfalso
    unfold pyStrip at hb
    obtain ⟨a, ha⟩ := List.dropWhile_suffix (l := (l.dropWhile isPyWs).reverse) isPyWs
    have hA : l.dropWhile isPyWs =
        ((l.dropWhile isPyWs).reverse.dropWhile isPyWs).reverse ++ a.reverse := by
      have := congrArg List.reverse ha
      simpa [List.reverse_append] using this.symm
    have h1 : containsDisjointDD d (l.dropWhile isPyWs) = true := by
      rw [hA]
      exact containsDisjointDD_append_mono d _ _ hb
    have h2 : containsDisjointDD d l = true :=
      containsDisjointDD_of_suffix d _ l (List.dropWhile_suffix isPyWs) h1
    rw [h] at h2
    exact Bool.noConfusion h2

/-- Inside a candidate blank-line match, interior (non-newline)
whitespace is only accumulated. -/
theorem collapseGo_ws_push :
    ∀ w : List Char, (∀ x ∈ w, isPyWs x = true ∧ x ≠ '\n') →
      ∀ acc ns l, collapseGo (CState.inNl acc ns) (w ++ l) =
        collapseGo (CState.inNl (w.reverse ++ acc) ns) l := by
  intro w
  induction w with
  | nil => intro _ acc ns l; rfl
  | cons c w' ih =>
    intro hw acc ns l
    obtain ⟨hcw, hcn⟩ := hw c (List.mem_cons_self c w')
    show collapseGo (CState.inNl acc ns) (c :: (w' ++ l)) = _
    rw [collapseGo, if_neg hcn, if_pos hcw]
    rw [ih (fun x hx => hw x (List.mem_cons_of_mem c hx)) (c :: acc) ns l]
    rw [show (c :: w').reverse ++ acc = w'.reverse ++ (c :: acc) by
      simp [List.append_assoc]]

/-- The emission of a blank-line candidate that runs into interior
whitespace until the end of input. -/
theorem collapseGo_inNl_allWs (w : List Char)
    (hw : ∀ x ∈ w, isPyWs x = true ∧ x ≠ '\n') (acc : List Char) (ns : Bool) :
    collapseGo (CState.inNl acc ns) w =
      (if ns = true then ['\n', '\n'] else ['\n']) ++ (acc.reverse ++ w) := by
  have h := collapseGo_ws_push w hw acc ns []
  rw [List.append_nil] at h
  rw [h]
  show (if ns = true then ['\n', '\n'] else ['\n']) ++ (w.reverse ++ acc).reverse = _
  rw [List.reverse_append, List.reverse_reverse]

/-- Re-collapsing a terminal blank-line emission is a no-op. -/
theorem collapseGo_recollapse_terminal (acc : List Char)
    (hacc : ∀ x ∈ acc, isPyWs x = true ∧ x ≠ '\n') (ns : Bool) :
    collapseGo CState.out ((if ns = true then ['\n', '\n'] else ['\n']) ++ acc.reverse) =
      (if ns = true then ['\n', '\n'] else ['\n']) ++ acc.reverse := by
  have hrev : ∀ x ∈ acc.reverse, isPyWs x = true ∧ x ≠ '\n' := by
    intro x hx
    rw [List.mem_reverse] at hx
    exact hacc x hx
  cases ns with
  | false =>
    show collapseGo CState.out ('\n' :: acc.reverse) = ['\n'] ++ acc.reverse
    rw [collapseGo, if_pos rfl]
    rw [collapseGo_inNl_allWs acc.reverse hrev [] false]
    simp
  | true =>
    show collapseGo CState.out ('\n' :: '\n' :: acc.reverse) = ['\n', '\n'] ++ acc.reverse
    rw [collapseGo, if_pos rfl]
    show collapseGo (CState.inNl [] false) ('\n' :: acc.reverse) = _
    rw [collapseGo, if_pos rfl]
    rw [collapseGo_inNl_allWs acc.reverse hrev [] true]
    simp

/-- Re-collapsing a flushed blank-line emission followed by a non-space
character distributes to the continuation. -/
theorem collapseGo_recollapse_flush (acc : List Char)
    (hacc : ∀ x ∈ acc, isPyWs x = true ∧ x ≠ '\n') (ns : Bool) (c : Char)
    (hc : ¬ isPyWs c = true) (X : List Char) :
    collapseGo CState.out
        ((if ns = true then ['\n', '\n'] else ['\n']) ++ acc.reverse ++ c :: X) =
      (if ns = true then ['\n', '\n'] else ['\n']) ++ acc.reverse ++
        c :: collapseGo CState.out X := by
  have hrev : ∀ x ∈ acc.reverse, isPyWs x = true ∧ x ≠ '\n' := by
    intro x hx
    rw [List.mem_reverse] at hx
    exact hacc x hx
  cases ns with
  | false =>
    show collapseGo CState.out ('\n' :: (acc.reverse ++ c :: X)) = _
    rw [collapseGo, if_pos rfl]
    rw [collapseGo_ws_push acc.reverse hrev [] false (c :: X)]
    rw [List.append_nil, List.reverse_reverse]
    rw [collapseGo, if_neg (fun h => hc (by rw [h]; rfl)), if_neg hc]
  | true =>
    show collapseGo CState.out ('\n' :: ('\n' :: (acc.reverse ++ c :: X))) = _
    rw [collapseGo, if_pos rfl]
    show collapseGo (CState.inNl [] false) ('\n' :: (acc.reverse ++ c :: X)) = _
    rw [collapseGo, if_pos rfl]
    rw [collapseGo_ws_push acc.reverse hrev [] true (c :: X)]
    rw [List.append_nil, List.reverse_reverse]
    rw [collapseGo, if_neg (fun h => hc (by rw [h]; rfl)), if_neg hc]

/-- The blank-line collapse is idempotent. -/
theorem collapseGo_idem :
    ∀ l : List Char,
      (collapseGo CState.out (collapseGo CState.out l) = collapseGo CState.out l) ∧
      (∀ acc ns, (∀ x ∈ acc, isPyWs x = true ∧ x ≠ '\n') →
        collapseGo CState.out (collapseGo (CState.inNl acc ns) l) =
          collapseGo (CState.inNl acc ns) l) := by
  intro l
  induction l with
  | nil =>
    exact ⟨rfl, fun acc ns hacc => collapseGo_recollapse_terminal acc hacc ns⟩
  | cons c rest ih =>
    constructor
    · by_cases hc : c = '\n'
      · have h2 : collapseGo CState.out (c :: rest) =
            collapseGo (CState.inNl [] false) rest := by rw [collapseGo, if_pos hc]
        rw [h2]
        exact ih.2 [] false (by simp)
      · have h3 : collapseGo CState.out (c :: rest) =
            c :: collapseGo CState.out rest := by rw [collapseGo, if_neg hc]
        rw [h3]
        have h3' : collapseGo CState.out (c :: collapseGo CState.out rest) =
            c :: collapseGo CState.out (collapseGo CState.out rest) := by
          rw [collapseGo, if_neg hc]
        rw [h3', ih.1]
    · intro acc ns hacc
      by_cases hc : c = '\n'
      · have h2 : collapseGo (CState.inNl acc ns) (c :: rest) =
            collapseGo (CState.inNl [] true) rest := by rw [collapseGo, if_pos hc]
        rw [h2]
        exact ih.2 [] true (by simp)
      · by_cases hw : isPyWs c = true
        · have h2 : collapseGo (CState.inNl acc ns) (c :: rest) =
              collapseGo (CState.inNl (c :: acc) ns) rest := by
            rw [collapseGo, if_neg hc, if_pos hw]
          rw [h2]
          refine ih.2 (c :: acc) ns ?_
          intro x hx
          rcases List.mem_cons.mp hx with hx' | hx'
          · rw [hx']; exact ⟨hw, hc⟩
          · exact hacc x hx'
        · have h2 : collapseGo (CState.inNl acc ns) (c :: rest) =
              (if ns = true then ['\n', '\n'] else ['\n']) ++ acc.reverse ++
                c :: collapseGo CState.out rest := by
            rw [collapseGo, if_neg hc, if_neg hw]
          rw [h2, collapseGo_recollapse_flush acc hacc ns c hw
            (collapseGo CState.out rest), ih.1]

/-- `dropWhile` eats a fully satisfying list. -/
theorem dropWhile_eq_nil_of_forall {p : Char → Bool} :
    ∀ l : List Char, (∀ x ∈ l, p x = true) → l.dropWhile p = [] := by
  intro l
  induction l with
  | nil => intro _; rfl
  | cons c r ih =>
    intro h
    rw [List.dropWhile_cons, if_pos (h c (List.mem_cons_self c r))]
    exact ih (fun x hx => h x (List.mem_cons_of_mem c hx))

/-- Leading whitespace commutes with the blank-line collapse: stripping
it before or after collapsing gives the same list. -/
theorem collapseGo_dropWhile :
    ∀ l : List Char,
      (List.dropWhile isPyWs (collapseGo CState.out l) =
        collapseGo CState.out (List.dropWhile isPyWs l)) ∧
      (∀ acc ns, (∀ x ∈ acc, isPyWs x = true) →
        List.dropWhile isPyWs (collapseGo (CState.inNl acc ns) l) =
          collapseGo CState.out (List.dropWhile isPyWs l)) := by
  intro l
  induction l with
  | nil =>
    refine ⟨rfl, fun acc ns hacc => ?_⟩
    show List.dropWhile isPyWs
      ((if ns = true then ['\n', '\n'] else ['\n']) ++ acc.reverse) = _
    rw [dropWhile_eq_nil_of_forall _ ?_]
    · rfl
    · intro x hx
      rcases List.mem_append.mp hx with h1 | h2
      · cases ns <;> simp at h1 <;> rw [h1] <;> rfl
      · rw [List.mem_reverse] at h2
        exact hacc x h2
  | cons c rest ih =>
    have hdropNl : c = '\n' →
        List.dropWhile isPyWs (c :: rest) = List.dropWhile isPyWs rest := by
      intro hc
      rw [List.dropWhile_cons, if_pos (by rw [hc]; rfl)]
    constructor
    · by_cases hc : c = '\n'
      · have h2 : collapseGo CState.out (c :: rest) =
            collapseGo (CState.inNl [] false) rest := by rw [collapseGo, if_pos hc]
        rw [h2, ih.2 [] false (by simp), hdropNl hc]
      · have h3 : collapseGo CState.out (c :: rest) =
            c :: collapseGo CState.out rest := by rw [collapseGo, if_neg hc]
        rw [h3]
        by_cases hw : isPyWs c = true
        · rw [show List.dropWhile isPyWs (c :: collapseGo CState.out rest) =
              List.dropWhile isPyWs (collapseGo CState.out rest) by
            rw [List.dropWhile_cons, if_pos hw]]
          rw [show List.dropWhile isPyWs (c :: rest) = List.dropWhile isPyWs rest by
            rw [List.dropWhile_cons, if_pos hw]]
          exact ih.1
        · rw [show List.dropWhile isPyWs (c :: collapseGo CState.out rest) =
              c :: collapseGo CState.out rest by rw [List.dropWhile_cons, if_neg hw]]
          rw [show List.dropWhile isPyWs (c :: rest) = c :: rest by
            rw [List.dropWhile_cons, if_neg hw]]
          rw [h3]
    · intro acc ns hacc
      by_cases hc : c = '\n'
      · have h2 : collapseGo (CState.inNl acc ns) (c :: rest) =
            collapseGo (CState.inNl [] true) rest := by rw [collapseGo, if_pos hc]
        rw [h2, ih.2 [] true (by simp), hdropNl hc]
      · by_cases hw : isPyWs c = true
        · have h2 : collapseGo (CState.inNl acc ns) (c :: rest) =
              collapseGo (CState.inNl (c :: acc) ns) rest := by
            rw [collapseGo, if_neg hc, if_pos hw]
          rw [h2]
          rw [ih.2 (c :: acc) ns ?_]
          · rw [show List.dropWhile isPyWs (c :: rest) = List.dropWhile isPyWs rest by
              rw [List.dropWhile_cons, if_pos hw]]
          · intro x hx
            rcases List.mem_cons.mp hx with hx' | hx'
            · rw [hx']; exact hw
            · exact hacc x hx'
        · have h2 : collapseGo (CState.inNl acc ns) (c :: rest) =
              (if ns = true then ['\n', '\n'] else ['\n']) ++ acc.reverse ++
                c :: collapseGo CState.out rest := by
            rw [collapseGo, if_neg hc, if_neg hw]
          rw [h2]
          rw [dropWhile_append_of_forall ?_]
          · rw [show List.dropWhile isPyWs (c :: collapseGo CState.out rest) =
                c :: collapseGo CState.out rest by rw [List.dropWhile_cons, if_neg hw]]
            rw [show List.dropWhile isPyWs (c :: rest) = c :: rest by
              rw [List.dropWhile_cons, if_neg hw]]
            rw [collapseGo, if_neg hc]
          · intro x hx
            rcases List.mem_append.mp hx with h1 | h2'
            · cases ns <;> simp at h1 <;> rw [h1] <;> rfl
            · rw [List.mem_reverse] at h2'
              exact hacc x h2'

/-- The collapse of a list that ends in a non-whitespace character
splits at that character. -/
theorem collapseGo_append_split :
    ∀ E : List Char, ∀ c : Char, ¬ isPyWs c = true → ∀ X : List Char,
      (collapseGo CState.out ((E ++ [c]) ++ X) =
        collapseGo CState.out (E ++ [c]) ++ collapseGo CState.out X) ∧
      (∀ acc ns, collapseGo (CState.inNl acc ns) ((E ++ [c]) ++ X) =
        collapseGo (CState.inNl acc ns) (E ++ [c]) ++ collapseGo CState.out X) := by
  intro E
  induction E with
  | nil =>
    intro c hc X
    have hcn : c ≠ '\n' := fun h => hc (by rw [h]; rfl)
    constructor
    · show collapseGo CState.out (c :: X) = collapseGo CState.out [c] ++ _
      rw [collapseGo, if_neg hcn]
      rw [show collapseGo CState.out [c] = [c] by rw [collapseGo, if_neg hcn]; rfl]
      rfl
    · intro acc ns
      show collapseGo (CState.inNl acc ns) (c :: X) =
        collapseGo (CState.inNl acc ns) [c] ++ _
      rw [collapseGo, if_neg hcn, if_neg hc]
      rw [show collapseGo (CState.inNl acc ns) [c] =
          (if ns = true then ['\n', '\n'] else ['\n']) ++ acc.reverse ++ [c] by
        rw [collapseGo, if_neg hcn, if_neg hc]; rfl]
      simp [List.append_assoc]
  | cons e E' ih =>
    intro c hc X
    have hshape : ((e :: E') ++ [c]) ++ X = e :: ((E' ++ [c]) ++ X) := by simp
    constructor
    · by_cases he : e = '\n'
      · rw [hshape]
        rw [show collapseGo CState.out (e :: ((E' ++ [c]) ++ X)) =
            collapseGo (CState.inNl [] false) ((E' ++ [c]) ++ X) by
          rw [collapseGo, if_pos he]]
        rw [show collapseGo CState.out ((e :: E') ++ [c]) =
            collapseGo (CState.inNl [] false) (E' ++ [c]) by
          rw [List.cons_append, collapseGo, if_pos he]]
        exact (ih c hc X).2 [] false
      · rw [hshape]
        rw [show collapseGo CState.out (e :: ((E' ++ [c]) ++ X)) =
            e :: collapseGo CState.out ((E' ++ [c]) ++ X) by
          rw [collapseGo, if_neg he]]
        rw [show collapseGo CState.out ((e :: E') ++ [c]) =
            e :: collapseGo CState.out (E' ++ [c]) by
          rw [List.cons_append, collapseGo, if_neg he]]
        rw [(ih c hc X).1]
        rfl
    · intro acc ns
      by_cases he : e = '\n'
      · rw [hshape]
        rw [show collapseGo (CState.inNl acc ns) (e :: ((E' ++ [c]) ++ X)) =
            collapseGo (CState.inNl [] true) ((E' ++ [c]) ++ X) by
          rw [collapseGo, if_pos he]]
        rw [show collapseGo (CState.inNl acc ns) ((e :: E') ++ [c]) =
            collapseGo (CState.inNl [] true) (E' ++ [c]) by
          rw [List.cons_append, collapseGo, if_pos he]]
        exact (ih c hc X).2 [] true
      · by_cases hw : isPyWs e = true
        · rw [hshape]
          rw [show collapseGo (CState.inNl acc ns) (e :: ((E' ++ [c]) ++ X)) =
              collapseGo (CState.inNl (e :: acc) ns) ((E' ++ [c]) ++ X) by
            rw [collapseGo, if_neg he, if_pos hw]]
          rw [show collapseGo (CState.inNl acc ns) ((e :: E') ++ [c]) =
              collapseGo (CState.inNl (e :: acc) ns) (E' ++ [c]) by
            rw [List.cons_append, collapseGo, if_neg he, if_pos hw]]
          exact (ih c hc X).2 (e :: acc) ns
        · rw [hshape]
          rw [show collapseGo (CState.inNl acc ns) (e :: ((E' ++ [c]) ++ X)) =
              (if ns = true then ['\n', '\n'] else ['\n']) ++ acc.reverse ++
                e :: collapseGo CState.out ((E' ++ [c]) ++ X) by
            rw [collapseGo, if_neg he, if_neg hw]]
          rw [show collapseGo (CState.inNl acc ns) ((e :: E') ++ [c]) =
              (if ns = true then ['\n', '\n'] else ['\n']) ++ acc.reverse ++
                e :: collapseGo CState.out (E' ++ [c]) by
            rw [List.cons_append, collapseGo, if_neg he, if_neg hw]]
          rw [(ih c hc X).1]
          simp [List.append_assoc]

/-- The last element of an append with a nonempty right part. -/
theorem getLast?_append_right (a b : List Char) (c : Char)
    (h : b.getLast? = some c) : (a ++ b).getLast? = some c := by
  induction a with
  | nil => exact h
  | cons x a' ih =>
    cases hl : a' ++ b with
    | nil =>
      rcases List.append_eq_nil.mp hl with ⟨_, rfl⟩
      simp at h
    | cons y t =>
      rw [List.cons_append, hl, List.getLast?_cons_cons, ← hl]
      exact ih

/-- Collapsing preserves a trailing non-whitespace character. -/
theorem collapseGo_getLast (c : Char) (hc : ¬ isPyWs c = true) :
    ∀ E : List Char,
      ((collapseGo CState.out (E ++ [c])).getLast? = some c) ∧
      (∀ acc ns, (collapseGo (CState.inNl acc ns) (E ++ [c])).getLast? = some c) := by
  have hcn : c ≠ '\n' := fun h => hc (by rw [h]; rfl)
  intro E
  induction E with
  | nil =>
    constructor
    · show (collapseGo CState.out [c]).getLast? = some c
      rw [show collapseGo CState.out [c] = [c] by rw [collapseGo, if_neg hcn]; rfl]
      rfl
    · intro acc ns
      show (collapseGo (CState.inNl acc ns) [c]).getLast? = some c
      rw [show collapseGo (CState.inNl acc ns) [c] =
          ((if ns = true then ['\n', '\n'] else ['\n']) ++ acc.reverse) ++ [c] by
        rw [collapseGo, if_neg hcn, if_neg hc]
        rw [show collapseGo CState.out ([] : List Char) = [] from rfl]]
      exact getLast?_append_right _ [c] c rfl
  | cons e E' ih =>
    have hshape : (e :: E') ++ [c] = e :: (E' ++ [c]) := by simp
    constructor
    · by_cases he : e = '\n'
      · rw [hshape, show collapseGo CState.out (e :: (E' ++ [c])) =
            collapseGo (CState.inNl [] false) (E' ++ [c]) by rw [collapseGo, if_pos he]]
        exact ih.2 [] false
      · rw [hshape, show collapseGo CState.out (e :: (E' ++ [c])) =
            e :: collapseGo CState.out (E' ++ [c]) by rw [collapseGo, if_neg he]]
        exact getLast?_append_right [e] _ c ih.1
    · intro acc ns
      by_cases he : e = '\n'
      · rw [hshape, show collapseGo (CState.inNl acc ns) (e :: (E' ++ [c])) =
            collapseGo (CState.inNl [] true) (E' ++ [c]) by rw [collapseGo, if_pos he]]
        exact ih.2 [] true
      · by_cases hw : isPyWs e = true
        · rw [hshape, show collapseGo (CState.inNl acc ns) (e :: (E' ++ [c])) =
              collapseGo (CState.inNl (e :: acc) ns) (E' ++ [c]) by
            rw [collapseGo, if_neg he, if_pos hw]]
          exact ih.2 (e :: acc) ns
        · rw [hshape, show collapseGo (CState.inNl acc ns) (e :: (E' ++ [c])) =
              ((if ns = true then ['\n', '\n'] else ['\n']) ++ acc.reverse) ++
                (e :: collapseGo CState.out (E' ++ [c])) by
            rw [collapseGo, if_neg he, if_neg hw]]
          refine getLast?_append_right _ _ c ?_
          exact getLast?_append_right [e] _ c ih.1

/-- Collapsing an all-whitespace input yields only whitespace. -/
theorem collapseGo_allWs :
    ∀ l : List Char, (∀ x ∈ l, isPyWs x = true) →
      (∀ y ∈ collapseGo CState.out l, isPyWs y = true) ∧
      (∀ acc ns, (∀ x ∈ acc, isPyWs x = true) →
        ∀ y ∈ collapseGo (CState.inNl acc ns) l, isPyWs y = true) := by
  intro l
  induction l with
  | nil =>
    intro _
    refine ⟨by intro y hy; exact absurd hy (List.not_mem_nil y),
      fun acc ns hacc y hy => ?_⟩
    rcases List.mem_append.mp hy with h1 | h2
    · cases ns <;> simp at h1 <;> rw [h1] <;> rfl
    · rw [List.mem_reverse] at h2
      exact hacc y h2
  | cons c rest ih =>
    intro hl
    have hc : isPyWs c = true := hl c (List.mem_cons_self c rest)
    have hrest : ∀ x ∈ rest, isPyWs x = true :=
      fun x hx => hl x (List.mem_cons_of_mem c hx)
    constructor
    · intro y hy
      by_cases hcn : c = '\n'
      · rw [show collapseGo CState.out (c :: rest) =
            collapseGo (CState.inNl [] false) rest by rw [collapseGo, if_pos hcn]] at hy
        exact (ih hrest).2 [] false (by simp) y hy
      · rw [show collapseGo CState.out (c :: rest) =
            c :: collapseGo CState.out rest by rw [collapseGo, if_neg hcn]] at hy
        rcases List.mem_cons.mp hy with hy' | hy'
        · rw [hy']; exact hc
        · exact (ih hrest).1 y hy'
    · intro acc ns hacc y hy
      by_cases hcn : c = '\n'
      · rw [show collapseGo (CState.inNl acc ns) (c :: rest) =
            collapseGo (CState.inNl [] true) rest by rw [collapseGo, if_pos hcn]] at hy
        exact (ih hrest).2 [] true (by simp) y hy
      · rw [show collapseGo (CState.inNl acc ns) (c :: rest) =
            collapseGo (CState.inNl (c :: acc) ns) rest by
          rw [collapseGo, if_neg hcn, if_pos hc]] at hy
        refine (ih hrest).2 (c :: acc) ns ?_ y hy
        intro x hx
        rcases List.mem_cons.mp hx with hx' | hx'
        · rw [hx']; exact hc
        · exact hacc x hx'

/-- Elements kept by `takeWhile` satisfy the predicate. -/
theorem mem_takeWhile_sat {p : Char → Bool} :
    ∀ l : List Char, ∀ x ∈ l.takeWhile p, p x = true := by
  intro l
  induction l with
  | nil => intro x hx; simp at hx
  | cons c r ih =>
    intro x hx
    rw [List.takeWhile_cons] at hx
    by_cases hc : p c = true
    · rw [if_pos hc] at hx
      rcases List.mem_cons.mp hx with hx' | hx'
      · rw [hx']; exact hc
      · exact ih x hx'
    · rw [if_neg hc] at hx
      simp at hx

/-- Dropping a trailing whitespace block recovers the part before it,
when that part does not itself end in whitespace. -/
theorem dropTrailing_append_ws (a u : List Char)
    (hu : ∀ x ∈ u, isPyWs x = true)
    (ha : ∀ c, a.getLast? = some c → isPyWs c = false) :
    ((a ++ u).reverse.dropWhile isPyWs).reverse = a := by
  rw [List.reverse_append]
  rw [dropWhile_append_of_forall
    (fun x hx => hu x (List.mem_reverse.mp hx))]
  cases hae : a.reverse with
  | nil =>
    have ha0 : a = [] := by simpa using congrArg List.reverse hae
    rw [ha0]
    rfl
  | cons x t =>
    have hx : a.getLast? = some x := by
      rw [← List.head?_reverse, hae]
      rfl
    have hxw : isPyWs x = false := ha x hx
    rw [List.dropWhile_cons, hxw]
    rw [show (if false = true then List.dropWhile isPyWs t else x :: t) = x :: t from rfl]
    rw [← hae, List.reverse_reverse]

/-- The head surviving a `dropWhile` fails the predicate. -/
theorem head_dropWhile_not (p : Char → Bool) :
    ∀ l : List Char, ∀ c, (l.dropWhile p).head? = some c → p c = false := by
  intro l
  induction l with
  | nil => intro c hc; simp at hc
  | cons x r ih =>
    intro c hc
    rw [List.dropWhile_cons] at hc
    by_cases hx : p x = true
    · rw [if_pos hx] at hc
      exact ih c hc
    · rw [if_neg hx] at hc
      simp only [List.head?_cons, Option.some.injEq] at hc
      rw [hc] at hx
      exact Bool.eq_false_iff.mpr hx

/-- A list whose head fails the predicate is untouched by `dropWhile`. -/
theorem dropWhile_of_head_fail (p : Char → Bool) (l : List Char)
    (h : ∀ c, l.head? = some c → p c = false) : l.dropWhile p = l := by
  cases l with
  | nil => rfl
  | cons x r =>
    rw [List.dropWhile_cons, h x rfl]
    rfl

/-- Stripping is idempotent. -/
theorem pyStrip_idem (l : List Char) : pyStrip (pyStrip l) = pyStrip l := by
  have hBhead : ∀ c, ((l.dropWhile isPyWs).reverse.dropWhile isPyWs).head? = some c →
      isPyWs c = false := head_dropWhile_not isPyWs _
  have hFhead : ∀ c, (pyStrip l).head? = some c → isPyWs c = false := by
    intro c hc
    unfold pyStrip at hc
    rw [List.head?_reverse] at hc
    obtain ⟨t, ht⟩ := List.dropWhile_suffix (l := (l.dropWhile isPyWs).reverse) isPyWs
    have h2 : ((l.dropWhile isPyWs).reverse).getLast? = some c := by
      rw [← ht]
      exact getLast?_append_right t _ c hc
    rw [List.getLast?_reverse] at h2
    exact head_dropWhile_not isPyWs l c h2
  have h1 : (pyStrip l).dropWhile isPyWs = pyStrip l :=
    dropWhile_of_head_fail _ _ hFhead
  show (((pyStrip l).dropWhile isPyWs).reverse.dropWhile isPyWs).reverse = pyStrip l
  rw [h1]
  unfold pyStrip
  rw [List.reverse_reverse]
  rw [dropWhile_of_head_fail isPyWs _ hBhead]

/-- A collapse fixed point that ends in a non-whitespace character stays
a fixed point after its trailing whitespace block is removed. -/
theorem collapse_fix_of_decomp (E w : List Char)
    (hw : ∀ x ∈ w, isPyWs x = true)
    (hE : ∀ c, E.getLast? = some c → isPyWs c = false)
    (hfix : collapseGo CState.out (E ++ w) = E ++ w) :
    collapseGo CState.out E = E := by
  by_cases h0 : E = []
  · rw [h0]; rfl
  · obtain ⟨c, hc⟩ : ∃ c, E.getLast? = some c :=
      ⟨E.getLast h0, List.getLast?_eq_getLast E h0⟩
    have hcw : isPyWs c = false := hE c hc
    have hdecomp : E.dropLast ++ [c] = E := by
      have h1 := List.dropLast_append_getLast h0
      have h2 : E.getLast h0 = c := by
        rw [List.getLast?_eq_getLast E h0] at hc
        exact Option.some.inj hc
      rw [← h2]
      exact h1
    have hsplit := (collapseGo_append_split E.dropLast c (by rw [hcw]; simp) w).1
    rw [hdecomp, hfix] at hsplit
    have hL : ((E ++ w).reverse.dropWhile isPyWs).reverse = E :=
      dropTrailing_append_ws E w hw hE
    have hcolE_last : (collapseGo CState.out E).getLast? = some c := by
      rw [← hdecomp]
      exact (collapseGo_getLast c (by rw [hcw]; simp) E.dropLast).1
    have hcolW : ∀ x ∈ collapseGo CState.out w, isPyWs x = true :=
      (collapseGo_allWs w hw).1
    have hR : ((collapseGo CState.out E ++ collapseGo CState.out w).reverse.dropWhile
        isPyWs).reverse = collapseGo CState.out E := by
      refine dropTrailing_append_ws _ _ hcolW ?_
      intro c' hc'
      rw [hcolE_last] at hc'
      exact (Option.some.inj hc') ▸ hcw
    rw [← hsplit, hL] at hR
    exact hR.symm

/-- Stripping a collapse fixed point leaves a collapse fixed point. -/
theorem collapse_fix_strip (Cl : List Char)
    (hC : collapseGo CState.out Cl = Cl) :
    collapseGo CState.out (pyStrip Cl) = pyStrip Cl := by
  have hD : collapseGo CState.out (Cl.dropWhile isPyWs) = Cl.dropWhile isPyWs := by
    have h := (collapseGo_dropWhile Cl).1
    rw [hC] at h
    exact h.symm
  have hsplit : Cl.dropWhile isPyWs =
      pyStrip Cl ++ ((Cl.dropWhile isPyWs).reverse.takeWhile isPyWs).reverse := by
    have h0 : ((Cl.dropWhile isPyWs).reverse.takeWhile isPyWs) ++
        ((Cl.dropWhile isPyWs).reverse.dropWhile isPyWs) =
        (Cl.dropWhile isPyWs).reverse := List.takeWhile_append_dropWhile isPyWs _
    have h1 := congrArg List.reverse h0
    rw [List.reverse_append, List.reverse_reverse] at h1
    exact h1.symm
  refine collapse_fix_of_decomp (pyStrip Cl)
    ((Cl.dropWhile isPyWs).reverse.takeWhile isPyWs).reverse ?_ ?_ ?_
  · intro x hx
    rw [List.mem_reverse] at hx
    exact mem_takeWhile_sat _ x hx
  · intro c hc
    unfold pyStrip at hc
    rw [List.getLast?_reverse] at hc
    exact head_dropWhile_not isPyWs _ c hc
  · rw [← hsplit]
    exact hD

/-- Unfolding `joinNl` on a list of at least two segments. -/
theorem joinNl_cons_cons (a b : List Char) (rest : List (List Char)) :
    joinNl (a :: b :: rest) = a ++ '\n' :: joinNl (b :: rest) := rfl

/-- `splitNl` always returns at least one segment. -/
theorem splitNl_cons_ex : ∀ l : List Char, ∃ seg segs, splitNl l = seg :: segs := by
  intro l
  match l with
  | [] => exact ⟨[], [], rfl⟩
  | c :: rest =>
    by_cases hc : c = '\n'
    · exact ⟨[], splitNl rest, by simp [splitNl, hc]⟩
    · cases hsp : splitNl rest with
      | nil => exact ⟨[c], [], by simp [splitNl, hc, hsp]⟩
      | cons seg segs => exact ⟨c :: seg, segs, by simp [splitNl, hc, hsp]⟩

/-- No segment produced by `splitNl` contains a newline. -/
theorem splitNl_no_nl : ∀ l : List Char, ∀ seg ∈ splitNl l, '\n' ∉ seg := by
  intro l
  induction l with
  | nil =>
    intro seg hseg
    rw [show splitNl [] = [[]] from rfl, List.mem_cons] at hseg
    rcases hseg with h | h
    · rw [h]; exact List.not_mem_nil _
    · exact absurd h (List.not_mem_nil _)
  | cons c rest ih =>
    intro seg hseg
    by_cases hc : c = '\n'
    · rw [show splitNl (c :: rest) = [] :: splitNl rest by simp [splitNl, hc],
        List.mem_cons] at hseg
      rcases hseg with h | h
      · rw [h]; exact List.not_mem_nil _
      · exact ih seg h
    · obtain ⟨s, ss, hsp⟩ := splitNl_cons_ex rest
      rw [show splitNl (c :: rest) = (c :: s) :: ss by simp [splitNl, hc, hsp],
        List.mem_cons] at hseg
      rcases hseg with h | h
      · rw [h]
        intro hmem
        rw [List.mem_cons] at hmem
        rcases hmem with h2 | h2
        · exact hc h2.symm
        · exact ih s (by rw [hsp]; exact List.mem_cons_self s ss) h2
      · exact ih seg (by rw [hsp]; exact List.mem_cons.mpr (Or.inr h))

/-- Rejoining the segments of `splitNl` restores the original list. -/
theorem joinNl_splitNl : ∀ l : List Char, joinNl (splitNl l) = l := by
  intro l
  induction l with
  | nil => rfl
  | cons c rest ih =>
    obtain ⟨s, ss, hsp⟩ := splitNl_cons_ex rest
    rw [hsp] at ih
    by_cases hc : c = '\n'
    · rw [show splitNl (c :: rest) = [] :: splitNl rest by simp [splitNl, hc], hsp,
        joinNl_cons_cons, List.nil_append, ih, hc]
    · rw [show splitNl (c :: rest) = (c :: s) :: ss by simp [splitNl, hc, hsp]]
      cases ss with
      | nil =>
        have ih' : s = rest := ih
        show c :: s = c :: rest
        rw [ih']
      | cons t ts =>
        rw [joinNl_cons_cons]
        rw [joinNl_cons_cons] at ih
        show (c :: s) ++ '\n' :: joinNl (t :: ts) = c :: rest
        rw [List.cons_append, ih]

/-- Prepending a newline-free block extends the first segment. -/
theorem splitNl_nlfree_append : ∀ a r : List Char, ∀ s ss,
    splitNl r = s :: ss → (∀ x ∈ a, x ≠ '\n') →
    splitNl (a ++ r) = (a ++ s) :: ss := by
  intro a
  induction a with
  | nil =>
    intro r s ss hr _
    rw [List.nil_append, hr, List.nil_append]
  | cons c a' ih =>
    intro r s ss hr ha
    have hc : c ≠ '\n' := ha c (List.mem_cons_self c a')
    have ih' := ih r s ss hr (fun x hx => ha x (List.mem_cons.mpr (Or.inr hx)))
    rw [List.cons_append, List.cons_append]
    simp [splitNl, hc, ih']

/-- A newline-free list is a single segment. -/
theorem splitNl_nlfree (a : List Char) (ha : ∀ x ∈ a, x ≠ '\n') :
    splitNl a = [a] := by
  have h := splitNl_nlfree_append a [] [] [] rfl ha
  rw [List.append_nil] at h
  exact h

/-- Splitting the rejoin of nonempty newline-free segments restores them. -/
theorem splitNl_joinNl : ∀ segs : List (List Char),
    (∀ seg ∈ segs, '\n' ∉ seg) → segs ≠ [] → splitNl (joinNl segs) = segs := by
  intro segs
  induction segs with
  | nil => intro _ h; exact absurd rfl h
  | cons s ss ih =>
    intro hfree _
    have hs : ∀ x ∈ s, x ≠ '\n' := by
      intro x hx h
      exact hfree s (List.mem_cons_self s ss) (h ▸ hx)
    cases ss with
    | nil =>
      show splitNl s = [s]
      exact splitNl_nlfree s hs
    | cons t ts =>
      have hfree' : ∀ seg ∈ t :: ts, '\n' ∉ seg :=
        fun seg h => hfree seg (List.mem_cons.mpr (Or.inr h))
      have ih' := ih hfree' (by simp)
      rw [joinNl_cons_cons]
      rw [splitNl_nlfree_append s ('\n' :: joinNl (t :: ts)) []
        (splitNl (joinNl (t :: ts))) (by simp [splitNl]) hs]
      rw [List.append_nil, ih']

/-- The single-delimiter substitution only removes delimiter characters:
the count of any other character is preserved (state `some g` owns the
group read so far). -/
theorem subSingleGo_count_ne (d c : Char) (hc : c ≠ d) :
    ∀ l : List Char, ∀ st : Option (List Char),
      (subSingleGo d st l).count c =
        (match st with | none => 0 | some g => g.count c) + l.count c := by
  have hdc : (d == c) = false := by simp [Ne.symm hc]
  intro l
  induction l with
  | nil =>
    intro st
    cases st with
    | none => simp [subSingleGo]
    | some g =>
      (simp [subSingleGo, List.count_cons, List.count_reverse, hdc]) <;> omega
  | cons x rest ih =>
    intro st
    cases st with
    | none =>
      by_cases hx : x = d
      · rw [subSingleGo, if_pos hx]
        rw [ih (some [])]
        (simp [List.count_cons, hx, hdc]) <;> omega
      · rw [subSingleGo, if_neg hx]
        rw [List.count_cons, ih none]
        (simp [List.count_cons]) <;> omega
    | some g =>
      by_cases hx : x = d
      · rw [subSingleGo, if_pos hx]
        rw [List.count_append, List.count_reverse, ih none]
        (simp [List.count_cons, hx, hdc]) <;> omega
      · rw [subSingleGo, if_neg hx]
        rw [ih (some (x :: g))]
        (simp [List.count_cons]) <;> omega

/-- The single-line single-delimiter machine emits no newline that was
not in its input line. -/
theorem subSingleGo_no_nl (d : Char) (hd : d ≠ '\n') (seg : List Char)
    (h : '\n' ∉ seg) : '\n' ∉ subSingleGo d none seg := by
  have hcnt : (subSingleGo d (none : Option (List Char)) seg).count '\n' =
      0 + seg.count '\n' := subSingleGo_count_ne d '\n' (Ne.symm hd) seg none
  refine List.count_eq_zero.mp ?_
  rw [hcnt, List.count_eq_zero.mpr h]

/-- The single-line double-delimiter machine emits no newline that was
not in its input line. -/
theorem subDoubleGo_no_nl (d : Char) (hd : d ≠ '\n') (seg : List Char)
    (h : '\n' ∉ seg) : '\n' ∉ subDoubleGo d none seg := by
  have hcnt : (subDoubleGo d (none : Option (List Char)) seg).count '\n' =
      0 + seg.count '\n' := subDoubleGo_count d '\n' (Ne.symm hd) seg none
  refine List.count_eq_zero.mp ?_
  rw [hcnt, List.count_eq_zero.mpr h]

/-- The lines of `subSingle d l` are the per-line machine outputs on the
lines of `l`. -/
theorem splitNl_subSingle (d : Char) (hd : d ≠ '\n') (l : List Char) :
    splitNl (subSingle d l) = (splitNl l).map (subSingleGo d none) := by
  unfold subSingle
  refine splitNl_joinNl _ ?_ ?_
  · intro seg hseg
    rw [List.mem_map] at hseg
    obtain ⟨seg₀, hm, rfl⟩ := hseg
    exact subSingleGo_no_nl d hd seg₀ (splitNl_no_nl l seg₀ hm)
  · obtain ⟨s, ss, hsp⟩ := splitNl_cons_ex l
    rw [hsp]
    simp

/-- The lines of `subDouble d l` are the per-line machine outputs on the
lines of `l`. -/
theorem splitNl_subDouble (d : Char) (hd : d ≠ '\n') (l : List Char) :
    splitNl (subDouble d l) = (splitNl l).map (subDoubleGo d none) := by
  unfold subDouble
  refine splitNl_joinNl _ ?_ ?_
  · intro seg hseg
    rw [List.mem_map] at hseg
    obtain ⟨seg₀, hm, rfl⟩ := hseg
    exact subDoubleGo_no_nl d hd seg₀ (splitNl_no_nl l seg₀ hm)
  · obtain ⟨s, ss, hsp⟩ := splitNl_cons_ex l
    rw [hsp]
    simp

/-- Mapping a function that fixes every member of a list is the
identity. -/
theorem map_self_eq (f : List Char → List Char) :
    ∀ L : List (List Char), (∀ seg ∈ L, f seg = seg) → L.map f = L := by
  intro L
  induction L with
  | nil => intro _; rfl
  | cons a L' ih =>
    intro h
    rw [List.map_cons, h a (List.mem_cons_self a L'),
      ih (fun seg hm => h seg (List.mem_cons.mpr (Or.inr hm)))]

/-- Line structure of the blank-line collapse: the first output line is
the first input line verbatim, and every later output line is either a
later input line verbatim or empty (in state `inNl acc ns` the pending
whitespace `acc` still belongs to the line being assembled). -/
theorem collapseGo_lines :
    ∀ l : List Char,
      ((splitNl (collapseGo CState.out l)).head? = (splitNl l).head? ∧
       (∀ seg ∈ (splitNl (collapseGo CState.out l)).tail,
         seg ∈ (splitNl l).tail ∨ seg = [])) ∧
      (∀ acc ns, (∀ x ∈ acc, x ≠ '\n') →
       ∀ seg ∈ splitNl (collapseGo (CState.inNl acc ns) l),
         seg ∈ splitNl (acc.reverse ++ l) ∨ seg = []) := by
  intro l
  induction l with
  | nil =>
    constructor
    · refine ⟨rfl, ?_⟩
      intro seg hseg
      have h0 : seg ∈ ([] : List (List Char)) := hseg
      exact absurd h0 (List.not_mem_nil seg)
    · intro acc ns hacc seg hseg
      have hrev : ∀ x ∈ acc.reverse, x ≠ '\n' :=
        fun x hx => hacc x (List.mem_reverse.mp hx)
      have hsp : splitNl acc.reverse = [acc.reverse] := splitNl_nlfree acc.reverse hrev
      cases ns with
      | false =>
        have h1 : collapseGo (CState.inNl acc false) [] = '\n' :: acc.reverse := rfl
        rw [h1, show splitNl ('\n' :: acc.reverse) = [] :: splitNl acc.reverse by
          simp [splitNl], hsp, List.mem_cons, List.mem_cons] at hseg
        rcases hseg with h | h | h
        · exact Or.inr h
        · refine Or.inl ?_
          rw [List.append_nil, hsp, h]
          exact List.mem_cons_self _ _
        · exact absurd h (List.not_mem_nil seg)
      | true =>
        have h1 : collapseGo (CState.inNl acc true) [] =
            '\n' :: '\n' :: acc.reverse := rfl
        rw [h1, show splitNl ('\n' :: '\n' :: acc.reverse) =
            [] :: [] :: splitNl acc.reverse by simp [splitNl], hsp,
          List.mem_cons, List.mem_cons, List.mem_cons] at hseg
        rcases hseg with h | h | h | h
        · exact Or.inr h
        · exact Or.inr h
        · refine Or.inl ?_
          rw [List.append_nil, hsp, h]
          exact List.mem_cons_self _ _
        · exact absurd h (List.not_mem_nil seg)
  | cons c rest ih =>
    constructor
    · by_cases hc : c = '\n'
      · subst hc
        have hstep : collapseGo CState.out ('\n' :: rest) =
            collapseGo (CState.inNl [] false) rest := by
          rw [collapseGo, if_pos rfl]
        have hh := collapseGo_inNl_head rest [] false
        cases hX : collapseGo (CState.inNl [] false) rest with
        | nil => rw [hX] at hh; exact absurd hh (by simp)
        | cons y t =>
          rw [hX] at hh
          simp only [List.head?_cons, Option.some.injEq] at hh
          subst hh
          constructor
          · rw [hstep, hX,
              show splitNl ('\n' :: t) = [] :: splitNl t by simp [splitNl],
              show splitNl ('\n' :: rest) = [] :: splitNl rest by simp [splitNl]]
            rfl
          · intro seg hseg
            rw [hstep, hX,
              show splitNl ('\n' :: t) = [] :: splitNl t by simp [splitNl]] at hseg
            have hmem : seg ∈ splitNl (collapseGo (CState.inNl [] false) rest) := by
              rw [hX, show splitNl ('\n' :: t) = [] :: splitNl t by simp [splitNl]]
              exact List.mem_cons.mpr (Or.inr hseg)
            have hin := ih.2 [] false
              (fun x hx => absurd hx (List.not_mem_nil x)) seg hmem
            rw [show splitNl ('\n' :: rest) = [] :: splitNl rest by simp [splitNl]]
            rcases hin with h | h
            · refine Or.inl ?_
              show seg ∈ splitNl rest
              exact h
            · exact Or.inr h
      · obtain ⟨sr, tr, hsr⟩ := splitNl_cons_ex rest
        obtain ⟨sy, ty, hsy⟩ := splitNl_cons_ex (collapseGo CState.out rest)
        have hstep : collapseGo CState.out (c :: rest) =
            c :: collapseGo CState.out rest := by
          rw [collapseGo, if_neg hc]
        have hse : sy = sr := by
          have hhead := ih.1.1
          rw [hsr, hsy] at hhead
          simp only [List.head?_cons, Option.some.injEq] at hhead
          exact hhead
        have htail := ih.1.2
        rw [hsy, hsr] at htail
        constructor
        · rw [hstep,
            show splitNl (c :: collapseGo CState.out rest) = (c :: sy) :: ty by
              simp [splitNl, hc, hsy],
            show splitNl (c :: rest) = (c :: sr) :: tr by simp [splitNl, hc, hsr],
            hse]
          rfl
        · intro seg hseg
          rw [hstep,
            show splitNl (c :: collapseGo CState.out rest) = (c :: sy) :: ty by
              simp [splitNl, hc, hsy]] at hseg
          rw [show splitNl (c :: rest) = (c :: sr) :: tr by simp [splitNl, hc, hsr]]
          exact htail seg hseg
    · intro acc ns hacc seg hseg
      by_cases hc : c = '\n'
      · subst hc
        have hstep : collapseGo (CState.inNl acc ns) ('\n' :: rest) =
            collapseGo (CState.inNl [] true) rest := by
          rw [collapseGo, if_pos rfl]
        rw [hstep] at hseg
        have hin := ih.2 [] true (fun x hx => absurd hx (List.not_mem_nil x)) seg hseg
        rcases hin with h | h
        · refine Or.inl ?_
          have h' : seg ∈ splitNl rest := h
          have hrev : ∀ x ∈ acc.reverse, x ≠ '\n' :=
            fun x hx => hacc x (List.mem_reverse.mp hx)
          rw [splitNl_nlfree_append acc.reverse ('\n' :: rest) [] (splitNl rest)
            (by simp [splitNl]) hrev]
          exact List.mem_cons.mpr (Or.inr h')
        · exact Or.inr h
      · rw [collapseGo, if_neg hc] at hseg
        by_cases hw : isPyWs c = true
        · rw [if_pos hw] at hseg
          have hacc' : ∀ x ∈ (c :: acc), x ≠ '\n' := by
            intro x hx
            rw [List.mem_cons] at hx
            rcases hx with h | h
            · rw [h]; exact hc
            · exact hacc x h
          have hin := ih.2 (c :: acc) ns hacc' seg hseg
          rcases hin with h | h
          · refine Or.inl ?_
            rw [List.reverse_cons] at h
            rw [show acc.reverse ++ [c] ++ rest = acc.reverse ++ c :: rest by
              rw [List.append_assoc]; rfl] at h
            exact h
          · exact Or.inr h
        · rw [if_neg hw] at hseg
          obtain ⟨sr, tr, hsr⟩ := splitNl_cons_ex rest
          obtain ⟨sy, ty, hsy⟩ := splitNl_cons_ex (collapseGo CState.out rest)
          have hse : sy = sr := by
            have hhead := ih.1.1
            rw [hsr, hsy] at hhead
            simp only [List.head?_cons, Option.some.injEq] at hhead
            exact hhead
          have htail := ih.1.2
          rw [hsy, hsr] at htail
          have hrev : ∀ x ∈ acc.reverse, x ≠ '\n' :=
            fun x hx => hacc x (List.mem_reverse.mp hx)
          have hinner : splitNl (acc.reverse ++ c :: collapseGo CState.out rest) =
              (acc.reverse ++ c :: sy) :: ty :=
            splitNl_nlfree_append acc.reverse _ (c :: sy) ty
              (by simp [splitNl, hc, hsy]) hrev
          have htarget : splitNl (acc.reverse ++ c :: rest) =
              (acc.reverse ++ c :: sr) :: tr :=
            splitNl_nlfree_append acc.reverse _ (c :: sr) tr
              (by simp [splitNl, hc, hsr]) hrev
          cases ns with
          | false =>
            rw [show (if false = true then ['\n', '\n'] else ['\n']) ++ acc.reverse ++
                c :: collapseGo CState.out rest =
                '\n' :: (acc.reverse ++ c :: collapseGo CState.out rest) by
              rw [if_neg (by simp), List.append_assoc]; rfl] at hseg
            rw [show splitNl ('\n' :: (acc.reverse ++ c :: collapseGo CState.out rest)) =
                [] :: splitNl (acc.reverse ++ c :: collapseGo CState.out rest) by
              simp [splitNl], hinner, List.mem_cons, List.mem_cons] at hseg
            rw [htarget]
            rcases hseg with h | h | h
            · exact Or.inr h
            · refine Or.inl ?_
              rw [h, hse]
              exact List.mem_cons_self _ _
            · rcases htail seg h with h2 | h2
              · exact Or.inl (List.mem_cons.mpr (Or.inr h2))
              · exact Or.inr h2
          | true =>
            rw [show (if true = true then ['\n', '\n'] else ['\n']) ++ acc.reverse ++
                c :: collapseGo CState.out rest =
                '\n' :: '\n' :: (acc.reverse ++ c :: collapseGo CState.out rest) by
              rw [if_pos rfl, List.append_assoc]; rfl] at hseg
            rw [show splitNl ('\n' :: '\n' ::
                  (acc.reverse ++ c :: collapseGo CState.out rest)) =
                [] :: [] :: splitNl (acc.reverse ++ c :: collapseGo CState.out rest) by
              simp [splitNl], hinner, List.mem_cons, List.mem_cons,
              List.mem_cons] at hseg
            rw [htarget]
            rcases hseg with h | h | h | h
            · exact Or.inr h
            · exact Or.inr h
            · refine Or.inl ?_
              rw [h, hse]
              exact List.mem_cons_self _ _
            · rcases htail seg h with h2 | h2
              · exact Or.inl (List.mem_cons.mpr (Or.inr h2))
              · exact Or.inr h2

/-- Every line of the collapsed output is a line of the input or empty. -/
theorem collapseGo_lines_mem (l : List Char) :
    ∀ seg ∈ splitNl (collapseGo CState.out l), seg ∈ splitNl l ∨ seg = [] := by
  obtain ⟨s1, t1, h1⟩ := splitNl_cons_ex (collapseGo CState.out l)
  obtain ⟨s2, t2, h2⟩ := splitNl_cons_ex l
  have hh := (collapseGo_lines l).1.1
  rw [h1, h2] at hh
  simp only [List.head?_cons, Option.some.injEq] at hh
  have ht := (collapseGo_lines l).1.2
  rw [h1, h2] at ht
  intro seg hseg
  rw [h1, List.mem_cons] at hseg
  rcases hseg with h | h
  · refine Or.inl ?_
    rw [h2, h, hh]
    exact List.mem_cons_self _ _
  · rcases ht seg h with h2m | h2m
    · refine Or.inl ?_
      rw [h2]
      exact List.mem_cons.mpr (Or.inr h2m)
    · exact Or.inr h2m

/-- The stripped list is a contiguous piece of the original. -/
theorem pyStrip_infix_self (l : List Char) : pyStrip l <:+: l := by
  have h1 : (l.dropWhile isPyWs).reverse.dropWhile isPyWs <:+
      (l.dropWhile isPyWs).reverse := List.dropWhile_suffix _
  have h2 : pyStrip l <+: l.dropWhile isPyWs := by
    unfold pyStrip
    have h3 := List.reverse_prefix.mpr h1
    rw [List.reverse_reverse] at h3
    exact h3
  exact h2.isInfix.trans (List.dropWhile_suffix _).isInfix

/-- Every line of a list is infix-covered by a line of any cons
extension. -/
theorem splitNl_cons_cover (c : Char) (t : List Char) :
    ∀ seg ∈ splitNl t, ∃ seg' ∈ splitNl (c :: t), seg <:+: seg' := by
  intro seg hseg
  by_cases hc : c = '\n'
  · refine ⟨seg, ?_, List.infix_refl seg⟩
    rw [show splitNl (c :: t) = [] :: splitNl t by simp [splitNl, hc]]
    exact List.mem_cons.mpr (Or.inr hseg)
  · obtain ⟨s, ss, hsp⟩ := splitNl_cons_ex t
    rw [hsp, List.mem_cons] at hseg
    rcases hseg with h | h
    · refine ⟨c :: s, ?_, ?_⟩
      · rw [show splitNl (c :: t) = (c :: s) :: ss by simp [splitNl, hc, hsp]]
        exact List.mem_cons_self _ _
      · rw [h]
        exact (List.suffix_cons c s).isInfix
    · refine ⟨seg, ?_, List.infix_refl seg⟩
      rw [show splitNl (c :: t) = (c :: s) :: ss by simp [splitNl, hc, hsp]]
      exact List.mem_cons.mpr (Or.inr h)

/-- Every line of a list is infix-covered by a line of any left
extension. -/
theorem splitNl_prepend_cover (u r : List Char) :
    ∀ seg ∈ splitNl r, ∃ seg' ∈ splitNl (u ++ r), seg <:+: seg' := by
  induction u with
  | nil => intro seg hseg; exact ⟨seg, hseg, List.infix_refl seg⟩
  | cons c u' ih =>
    intro seg hseg
    obtain ⟨seg₁, hmem₁, hinf₁⟩ := ih seg hseg
    obtain ⟨seg₂, hmem₂, hinf₂⟩ := splitNl_cons_cover c (u' ++ r) seg₁ hmem₁
    exact ⟨seg₂, by rw [List.cons_append]; exact hmem₂, hinf₁.trans hinf₂⟩

/-- The first line of a list is a prefix of the first line of any right
extension. -/
theorem splitNl_head_prefix_append :
    ∀ u r : List Char, ∀ s₁ t₁ s₂ t₂, splitNl u = s₁ :: t₁ →
      splitNl (u ++ r) = s₂ :: t₂ → s₁ <+: s₂ := by
  intro u
  induction u with
  | nil =>
    intro r s₁ t₁ s₂ t₂ h1 _
    rw [show splitNl [] = [[]] from rfl] at h1
    injection h1 with h1a _
    rw [← h1a]
    exact List.nil_prefix
  | cons c u' ih =>
    intro r s₁ t₁ s₂ t₂ h1 h2
    by_cases hc : c = '\n'
    · rw [show splitNl (c :: u') = [] :: splitNl u' by simp [splitNl, hc]] at h1
      injection h1 with h1a _
      rw [← h1a]
      exact List.nil_prefix
    · obtain ⟨su, tu, hu⟩ := splitNl_cons_ex u'
      obtain ⟨sur, tur, hur⟩ := splitNl_cons_ex (u' ++ r)
      rw [show splitNl (c :: u') = (c :: su) :: tu by simp [splitNl, hc, hu]] at h1
      rw [List.cons_append,
        show splitNl (c :: (u' ++ r)) = (c :: sur) :: tur by
          simp [splitNl, hc, hur]] at h2
      injection h1 with h1a _
      injection h2 with h2a _
      rw [← h1a, ← h2a]
      obtain ⟨w, hw⟩ := ih r su tu sur tur hu hur
      exact ⟨w, by rw [List.cons_append, hw]⟩

/-- Every line of a list is infix-covered by a line of any right
extension. -/
theorem splitNl_extend_cover (u v : List Char) :
    ∀ seg ∈ splitNl u, ∃ seg' ∈ splitNl (u ++ v), seg <:+: seg' := by
  induction u with
  | nil =>
    intro seg hseg
    rw [show splitNl [] = [[]] from rfl, List.mem_cons] at hseg
    rcases hseg with h | h
    · obtain ⟨s, ss, hsp⟩ := splitNl_cons_ex ([] ++ v)
      refine ⟨s, by rw [hsp]; exact List.mem_cons_self s ss, ?_⟩
      rw [h]
      exact List.nil_infix
    · exact absurd h (List.not_mem_nil seg)
  | cons c u' ih =>
    intro seg hseg
    by_cases hc : c = '\n'
    · rw [show splitNl (c :: u') = [] :: splitNl u' by simp [splitNl, hc],
        List.mem_cons] at hseg
      have htarget : splitNl ((c :: u') ++ v) = [] :: splitNl (u' ++ v) := by
        rw [List.cons_append]; simp [splitNl, hc]
      rcases hseg with h | h
      · refine ⟨[], by rw [htarget]; exact List.mem_cons_self _ _, ?_⟩
        rw [h]
      · obtain ⟨seg', hm, hi⟩ := ih seg h
        exact ⟨seg', by rw [htarget]; exact List.mem_cons.mpr (Or.inr hm), hi⟩
    · obtain ⟨su, tu, hu⟩ := splitNl_cons_ex u'
      obtain ⟨sv, tv, hv⟩ := splitNl_cons_ex (u' ++ v)
      have h1 : splitNl (c :: u') = (c :: su) :: tu := by simp [splitNl, hc, hu]
      have h2 : splitNl ((c :: u') ++ v) = (c :: sv) :: tv := by
        rw [List.cons_append]; simp [splitNl, hc, hv]
      rw [h1, List.mem_cons] at hseg
      rcases hseg with h | h
      · obtain ⟨w, hw⟩ := splitNl_head_prefix_append u' v su tu sv tv hu hv
        refine ⟨c :: sv, by rw [h2]; exact List.mem_cons_self _ _, ?_⟩
        rw [h]
        exact List.IsPrefix.isInfix ⟨w, by rw [List.cons_append, hw]⟩
      · have hmem : seg ∈ splitNl u' := by
          rw [hu]; exact List.mem_cons.mpr (Or.inr h)
        obtain ⟨seg', hm, hi⟩ := ih seg hmem
        rw [hv, List.mem_cons] at hm
        rcases hm with hm | hm
        · refine ⟨c :: sv, by rw [h2]; exact List.mem_cons_self _ _, ?_⟩
          refine hi.trans ?_
          rw [hm]
          exact (List.suffix_cons c sv).isInfix
        · exact ⟨seg', by rw [h2]; exact List.mem_cons.mpr (Or.inr hm), hi⟩

/-- Every line of an infix of a list is infix-covered by a line of the
list. -/
theorem splitNl_infix_cover (l₁ l₂ : List Char) (h : l₁ <:+: l₂) :
    ∀ seg ∈ splitNl l₁, ∃ seg' ∈ splitNl l₂, seg <:+: seg' := by
  obtain ⟨u, v, rfl⟩ := h
  intro seg hseg
  obtain ⟨seg₁, hm₁, hi₁⟩ := splitNl_extend_cover l₁ v seg hseg
  obtain ⟨seg₂, hm₂, hi₂⟩ := splitNl_prepend_cover u (l₁ ++ v) seg₁ hm₁
  refine ⟨seg₂, ?_, hi₁.trans hi₂⟩
  rw [List.append_assoc]
  exact hm₂

/-- Two disjoint double-delimiter occurrences in a contiguous piece are
also present in the whole. -/
theorem containsDisjointDD_infix_mono (d : Char) (s t : List Char) (hst : s <:+: t)
    (h : containsDisjointDD d s = true) : containsDisjointDD d t = true := by
  obtain ⟨u, v, rfl⟩ := hst
  exact containsDisjointDD_of_suffix d (s ++ v) (u ++ s ++ v)
    ⟨u, (List.append_assoc u s v).symm⟩
    (containsDisjointDD_append_mono d s v h)

/-- After the three marker passes, the collapse and the strip, every
line of the result holds at most one single delimiter and no two
disjoint double-tilde occurrences. -/
theorem clean_lines_inv (x : List Char) :
    ∀ seg ∈ splitNl (pyStrip (collapseGo CState.out
      (subDouble '~' (subSingle '*' (subDouble '*' x))))),
      seg.count '*' ≤ 1 ∧ containsDisjointDD '~' seg = false := by
  have hT : ∀ seg₀ ∈ splitNl (subDouble '~' (subSingle '*' (subDouble '*' x))),
      seg₀.count '*' ≤ 1 ∧ containsDisjointDD '~' seg₀ = false := by
    intro seg₀ hseg₀
    rw [splitNl_subDouble '~' (by decide) _, List.mem_map] at hseg₀
    obtain ⟨seg₁, hm₁, rfl⟩ := hseg₀
    refine ⟨?_, (subDoubleGo_noDisj '~' seg₁).1⟩
    rw [splitNl_subSingle '*' (by decide) _, List.mem_map] at hm₁
    obtain ⟨seg₂, hm₂, rfl⟩ := hm₁
    have hcnt : (subDoubleGo '~' (none : Option (List Char))
        (subSingleGo '*' none seg₂)).count '*' =
        0 + (subSingleGo '*' none seg₂).count '*' :=
      subDoubleGo_count '~' '*' (by decide) _ none
    rw [hcnt, Nat.zero_add]
    exact (subSingleGo_count '*' seg₂).1
  have hC : ∀ seg₀ ∈ splitNl (collapseGo CState.out
      (subDouble '~' (subSingle '*' (subDouble '*' x)))),
      seg₀.count '*' ≤ 1 ∧ containsDisjointDD '~' seg₀ = false := by
    intro seg₀ hseg₀
    rcases collapseGo_lines_mem _ seg₀ hseg₀ with h | h
    · exact hT seg₀ h
    · rw [h]
      exact ⟨by decide, by decide⟩
  intro seg hseg
  obtain ⟨seg', hm', hinf⟩ := splitNl_infix_cover _ _ (pyStrip_infix_self _) seg hseg
  obtain ⟨hc1, hc2⟩ := hC seg' hm'
  constructor
  · exact le_trans (hinf.sublist.count_le '*') hc1
  · cases hb : containsDisjointDD '~' seg with
    | false => rfl
    | true =>
      have h2 := containsDisjointDD_infix_mono '~' seg seg' hinf hb
      rw [hc2] at h2
      exact absurd h2 (by simp)

/-- A string every line of which holds at most one asterisk and no two
disjoint double-tilde occurrences, and which is a fixed point of both
the blank-line collapse and the strip, passes through `_clean_content`
unchanged. -/
theorem clean_content_second_pass (G : String)
    (h1 : ∀ seg ∈ splitNl G.data,
      seg.count '*' ≤ 1 ∧ containsDisjointDD '~' seg = false)
    (h3 : collapseGo CState.out G.data = G.data)
    (h4 : pyStrip G.data = G.data) :
    RedditScraper._clean_content G = G := by
  have hfix : ∀ f : List Char → List Char,
      (∀ seg ∈ splitNl G.data, f seg = seg) →
      joinNl ((splitNl G.data).map f) = G.data := by
    intro f hf
    rw [map_self_eq f (splitNl G.data) hf, joinNl_splitNl]
  have hB : subDouble '*' G.data = G.data := by
    unfold subDouble
    exact hfix _ (fun seg hm => subDouble_fix_of_count '*' seg (h1 seg hm).1)
  have hI : subSingle '*' G.data = G.data := by
    unfold subSingle
    exact hfix _ (fun seg hm => subSingle_fix_of_count '*' seg (h1 seg hm).1)
  have hD : subDouble '~' G.data = G.data := by
    unfold subDouble
    exact hfix _ (fun seg hm => subDouble_fix_of_noDisj '~' seg (h1 seg hm).2)
  unfold RedditScraper._clean_content
  by_cases hG : G = ""
  · rw [if_pos hG, hG]
  · rw [if_neg hG, hB, hI, hD, h3, h4]

/-- C4 (corrected).  The marker substitutions are applied without
`re.DOTALL`, so no match spans a newline: for every input string, every
newline-free line of the output of `_clean_content` contains at most
one asterisk character (so no complete single-line bold marker or
italic pair remains in any line) and contains no two disjoint
occurrences of a double tilde (so no complete single-line strikethrough
span remains in any line) — unpaired markers, and pairs whose group
would have to cross a newline, survive, as `c4_counterexample` shows —
and `_clean_content` is idempotent. -/
theorem c4_clean_content_amended (s : String) :
    (∀ seg ∈ splitNl (RedditScraper._clean_content s).data,
      seg.count '*' ≤ 1 ∧ containsDisjointDD '~' seg = false) ∧
    RedditScraper._clean_content (RedditScraper._clean_content s) =
      RedditScraper._clean_content s := by
  by_cases hs : s = ""
  · subst hs
    constructor
    · intro seg hseg
      have h0 : splitNl (RedditScraper._clean_content "").data = [[]] := by decide
      rw [h0, List.mem_cons] at hseg
      rcases hseg with h | h
      · rw [h]
        exact ⟨by decide, by decide⟩
      · exact absurd h (List.not_mem_nil seg)
    · decide
  · have hdata : (RedditScraper._clean_content s).data =
        pyStrip (collapseGo CState.out
          (subDouble '~' (subSingle '*' (subDouble '*' s.data)))) := by
      unfold RedditScraper._clean_content
      rw [if_neg hs]
    have hinv : ∀ seg ∈ splitNl (RedditScraper._clean_content s).data,
        seg.count '*' ≤ 1 ∧ containsDisjointDD '~' seg = false := by
      rw [hdata]
      exact clean_lines_inv s.data
    have hCfix : collapseGo CState.out (collapseGo CState.out
        (subDouble '~' (subSingle '*' (subDouble '*' s.data)))) =
        collapseGo CState.out
          (subDouble '~' (subSingle '*' (subDouble '*' s.data))) :=
      (collapseGo_idem _).1
    have hC2 : collapseGo CState.out (RedditScraper._clean_content s).data =
        (RedditScraper._clean_content s).data := by
      rw [hdata]
      exact collapse_fix_strip _ hCfix
    have hS2 : pyStrip (RedditScraper._clean_content s).data =
        (RedditScraper._clean_content s).data := by
      rw [hdata]
      exact pyStrip_idem _
    exact ⟨hinv, clean_content_second_pass _ hinv hC2 hS2⟩

/-- Witness for C4 at the concrete input `"x"`: the single line of the
cleaned output satisfies both per-line bounds. -/
theorem c4_witness :
    (['x'] : List Char).count '*' ≤ 1 ∧ containsDisjointDD '~' ['x'] = false :=
  (c4_clean_content_amended "x").1 ['x'] (by decide)
